import Mathlib

/-!
Verification of the cjunct execution engine against its specification.

The definitions below are shallow embeddings of the Python sources:
  * `src/cjunct/actions/base.py`   — action state machine, emission scanning
  * `src/cjunct/actions/net.py`    — workflow construction (ActionNet)
  * `src/cjunct/strategy.py`       — scheduling strategies (LooseStrategy)
  * `src/cjunct/rendering.py`      — string template lexer and renderer
  * `src/cjunct/rendering/__init__.py`, `src/cjunct/rendering/containers.py`
                                   — depth-bounded recursive rendering
  * `src/cjunct/runner.py`         — per-action driver
Machine strings are modelled as `String` or as byte lists (`List Nat`)
where byte-level processing (base64) matters.  Fallible operations return
`Except`/`Option`.  Asynchronous code is embedded as explicit state
passing under the deterministic schedule exercised by the relevant claim.
-/

namespace Cjunct

/-- Action valid states, from `ActionStatus` in `actions/base.py`
(exactly the six members of the Python enum). -/
inductive ActionStatus where
  | PENDING
  | RUNNING
  | SUCCESS
  | FAILURE
  | SKIPPED
  | OMITTED
  deriving DecidableEq, Repr

/-- Dependency info holder, from `ActionDependency` in `actions/base.py`. -/
structure ActionDependency where
  strict : Bool := false
  external : Bool := false
  deriving DecidableEq, Repr

/-- Reserved action field names, from `ACTION_RESERVED_FIELD_NAMES` in
`actions/constants.py`.  Note that `severity` and `selectable` are merely
reserved ("planned in future"). -/
def ACTION_RESERVED_FIELD_NAMES : List String :=
  ["name", "type", "description", "expects", "severity", "selectable"]

/-- Runtime state of one `ActionBase` object: its `_status`, whether its
completion future `_maybe_finish_flag` is done, whether a task was ever
allocated for it (`_running_task`), and its `_yielded_keys` outcomes. -/
structure ActionState where
  status : ActionStatus := ActionStatus.PENDING
  futDone : Bool := false
  ran : Bool := false
  yieldedKeys : List (String × String) := []
  deriving DecidableEq, Repr

/-- `ActionBase.done`: the future is done or the status is SKIPPED/OMITTED. -/
def ActionState.done (a : ActionState) : Bool :=
  a.futDone || a.status == ActionStatus.SKIPPED || a.status == ActionStatus.OMITTED

/-- `ActionBase.disable`: raises `RuntimeError` unless the status is
PENDING; otherwise sets OMITTED and completes the future
(`get_future().set_result(None)`). -/
def ActionState.disable (a : ActionState) : Except String ActionState :=
  if a.status ≠ ActionStatus.PENDING then
    Except.error "RuntimeError: action cannot be disabled due to its status"
  else
    Except.ok { a with status := ActionStatus.OMITTED, futDone := true }

/-- `ActionBase._internal_skip`: unconditionally sets the status to SKIPPED
(the completion future is not touched).  `ActionBase.skip` performs this and
then raises `ActionSkip`; `BaseStrategy._skip_action` swallows that
exception, so the state effect of both is this function. -/
def ActionState.internalSkip (a : ActionState) : ActionState :=
  { a with status := ActionStatus.SKIPPED }

/-- `ActionBase._internal_fail`: only when the future is not yet done,
sets FAILURE and completes the future with the exception
(`get_future().set_exception`). -/
def ActionState.internalFail (a : ActionState) : ActionState :=
  if a.futDone then a
  else { a with status := ActionStatus.FAILURE, futDone := true }

/-- `ActionBase.fail`: `_internal_fail` followed by raising
`ActionRunError` (the state effect is `_internal_fail`). -/
def ActionState.fail (a : ActionState) : ActionState :=
  a.internalFail

/-- Possible behaviours of a handler coroutine `run()`, as seen by
`ActionBase._await`: normal return, `self.skip()` (raises `ActionSkip`
after setting SKIPPED), `self.fail(msg)` (raises `ActionRunError` after
`_internal_fail`), or any other exception. -/
inductive HandlerOutcome where
  | ok (newKeys : List (String × String))
  | skipCalled
  | failCalled
  | raised
  deriving DecidableEq, Repr

/-- `ActionBase._await`, given the handler behaviour: if the future is
already done, return immediately; otherwise allocate the task (status
RUNNING), run the handler, then dispatch on its outcome exactly as the
`try`/`except` ladder does.  Returns the new state and whether `_await`
re-raised an exception to its caller. -/
def ActionState.awaitAction (a : ActionState) (h : HandlerOutcome) : ActionState × Bool :=
  if a.futDone then (a, false)
  else
    let a1 : ActionState := { a with status := ActionStatus.RUNNING, ran := true }
    match h with
    | HandlerOutcome.ok newKeys =>
        -- no exception: status := SUCCESS, then complete the future
        ({ a1 with status := ActionStatus.SUCCESS, futDone := true,
                   yieldedKeys := a1.yieldedKeys ++ newKeys }, false)
    | HandlerOutcome.skipCalled =>
        -- `skip()` set SKIPPED and raised ActionSkip, which `_await`
        -- swallows; the future is then completed normally
        ({ a1 with status := ActionStatus.SKIPPED, futDone := true }, false)
    | HandlerOutcome.failCalled =>
        -- `fail()` already ran `_internal_fail`; ActionRunError re-raised
        (a1.internalFail, true)
    | HandlerOutcome.raised =>
        -- any other exception: `_internal_fail` then re-raise
        (a1.internalFail, true)

/-- A fresh action object as built by `ActionBase.__init__`. -/
def freshAction : ActionState := {}

/-- Statuses from which no transition should occur according to the spec. -/
def ActionStatus.isTerminal (s : ActionStatus) : Bool :=
  s == ActionStatus.SUCCESS || s == ActionStatus.FAILURE ||
  s == ActionStatus.SKIPPED || s == ActionStatus.OMITTED

/-- C4 (counterexample): the claim says a low-severity action moves to a
WARNING terminal status on `fail`.  In the code there is no severity
attribute (the name is merely reserved for the future) and no WARNING
member of the status enum: `fail` on a concrete fresh action yields
FAILURE, and every status is one of the six enum members. -/
theorem c4_no_warning_counterexample :
    freshAction.fail.status = ActionStatus.FAILURE ∧
    "severity" ∈ ACTION_RESERVED_FIELD_NAMES ∧
    ∀ s : ActionStatus,
      s ∈ [ActionStatus.PENDING, ActionStatus.RUNNING, ActionStatus.SUCCESS,
           ActionStatus.FAILURE, ActionStatus.SKIPPED, ActionStatus.OMITTED] := by
  refine ⟨by decide, by decide, ?_⟩
  intro s
  cases s <;> simp

/-- C4 (amended): `fail(message)` transitions any action whose completion
future is not yet done to FAILURE regardless of severity (the `severity`
field is only a reserved name); the status machine has no WARNING state —
its terminal states are exactly SUCCESS, FAILURE, SKIPPED and OMITTED. -/
theorem c4_fail_always_failure (a : ActionState) (h : a.futDone = false) :
    a.fail.status = ActionStatus.FAILURE ∧ a.fail.futDone = true ∧
    ∀ s : ActionStatus, s.isTerminal = true →
      s ∈ [ActionStatus.SUCCESS, ActionStatus.FAILURE,
           ActionStatus.SKIPPED, ActionStatus.OMITTED] := by
  refine ⟨?_, ?_, ?_⟩
  · simp [ActionState.fail, ActionState.internalFail, h]
  · simp [ActionState.fail, ActionState.internalFail, h]
  · intro s hs
    cases s <;> simp_all [ActionStatus.isTerminal]

/-- C4 (witness): instantiation of `c4_fail_always_failure` at a fresh
action. -/
theorem c4_fail_always_failure_witness :
    freshAction.fail.status = ActionStatus.FAILURE :=
  (c4_fail_always_failure freshAction (by decide)).1

/-- A successfully finished action: status SUCCESS, future done (this is
the state `_await` leaves after a normal handler return). -/
def successAction : ActionState :=
  { status := ActionStatus.SUCCESS, futDone := true }

/-- C5 (counterexample): the claim says no operation changes a terminal
status.  But `skip()` (`_internal_skip`) overwrites the status
unconditionally: applied to an action already in the terminal SUCCESS
state it moves it to SKIPPED.  Moreover an action skipped by a strategy
(SKIPPED with a pending future) is moved to FAILURE by `fail()`. -/
theorem c5_terminal_mutation_counterexample :
    successAction.status.isTerminal = true ∧
    successAction.internalSkip.status = ActionStatus.SKIPPED ∧
    ({ status := ActionStatus.SKIPPED, futDone := false : ActionState }.fail).status
      = ActionStatus.FAILURE := by
  refine ⟨by decide, by decide, by decide⟩

/-- C5 (amended): `disable()` in any state other than PENDING raises and
leaves the status unchanged, while `disable()` in PENDING sets OMITTED and
completes the future.  `fail()` and run completion (`_await`) leave the
status unchanged whenever the completion future is already done — which
covers every terminal state reached through `_await` — but `skip()` sets
SKIPPED unconditionally, even from a terminal state, and `fail()` on an
action whose future is still pending (as after a strategy-side skip)
overwrites the status with FAILURE. -/
theorem c5_transition_discipline (a : ActionState) (h : HandlerOutcome)
    (hnp : a.status ≠ ActionStatus.PENDING) (hfd : a.futDone = true) :
    (∀ r, a.disable = Except.ok r → False) ∧
    (∀ b : ActionState, b.status = ActionStatus.PENDING →
        ∃ r, b.disable = Except.ok r ∧
          r.status = ActionStatus.OMITTED ∧ r.futDone = true) ∧
    a.fail.status = a.status ∧
    (a.awaitAction h).1 = a ∧
    (∀ b : ActionState, b.internalSkip.status = ActionStatus.SKIPPED) := by
  refine ⟨?_, ?_, ?_, ?_, ?_⟩
  · intro r hr
    simp only [ActionState.disable] at hr
    rw [if_pos hnp] at hr
    exact Except.noConfusion hr
  · intro b hb
    refine ⟨{ b with status := ActionStatus.OMITTED, futDone := true }, ?_, rfl, rfl⟩
    simp [ActionState.disable, hb]
  · simp [ActionState.fail, ActionState.internalFail, hfd]
  · simp [ActionState.awaitAction, hfd]
  · intro b
    rfl

/-- C5 (witness): instantiation of `c5_transition_discipline` at a
successfully finished action and an arbitrary handler outcome. -/
theorem c5_transition_discipline_witness :
    successAction.fail.status = successAction.status :=
  (c5_transition_discipline successAction HandlerOutcome.raised
    (by decide) (by decide)).2.2.1

/-! ### Strategies (`strategy.py`)

`LooseStrategy` (with the `STRICT` class flag covering `StrictStrategy`)
is embedded as explicit state passing.  The `asyncio.wait` suspension is
resolved by the deterministic schedule in which every emitted action is
driven to completion before the next `__anext__` call — the schedule of
the scenario the claim describes (and of the repository's own strategy
tests). -/

/-- An action net as the strategy sees it: insertion-ordered map from
action name to its `ancestors` mapping. -/
abbrev Net := List (String × List (String × ActionDependency))

/-- Ancestors of one action in the net (`net[name].ancestors`). -/
def ancestorsOf (net : Net) (n : String) : List (String × ActionDependency) :=
  (net.lookup n).getD []

/-- Mutable state of a running `LooseStrategy`: the per-action runtime
states, `_action_blockers` and `_active_actions_map` (as the ordered list
of its keys). -/
structure StrategyState where
  states : List (String × ActionState)
  blockers : List (String × List String)
  active : List String
  deriving DecidableEq, Repr

/-- Runtime state of one action by name (actions in the net always have an
entry; the default is never used on claims' inputs). -/
def stateOf (st : StrategyState) (n : String) : ActionState :=
  (st.states.lookup n).getD {}

/-- Names of all done actions
(`{action.name for action in self._actions.values() if action.done()}`). -/
def doneNames (st : StrategyState) : List String :=
  (st.states.filter (fun p => p.2.done)).map Prod.fst

/-- Result of one scan over `_action_blockers`: either some action became
unblocked (and its entry was popped), or none did; in both cases the
stored blocker sets have the done ancestors removed, as the Python loop
mutates them in place (`maybe_next_action_blockers -= done_action_names`),
entries past a popped one staying untouched. -/
inductive ScanRes where
  | found (name : String) (blockers : List (String × List String))
  | notFound (blockers : List (String × List String))
  deriving DecidableEq, Repr

/-- The scan inside `LooseStrategy._get_maybe_next_action`. -/
def getMaybeNextAux (dn : List String) :
    List (String × List String) → ScanRes
  | [] => ScanRes.notFound []
  | (n, bl) :: rest =>
      if (bl.filter (fun b => !(dn.contains b))).isEmpty then
        ScanRes.found n rest
      else
        match getMaybeNextAux dn rest with
        | ScanRes.found m rest1 =>
            ScanRes.found m ((n, bl.filter (fun b => !(dn.contains b))) :: rest1)
        | ScanRes.notFound rest1 =>
            ScanRes.notFound ((n, bl.filter (fun b => !(dn.contains b))) :: rest1)

/-- `LooseStrategy._get_maybe_next_action`: scan the blockers, pop a ready
action (registering it in `_active_actions_map`) or report none. -/
def getMaybeNextAction (st : StrategyState) : Option String × StrategyState :=
  match getMaybeNextAux (doneNames st) st.blockers with
  | ScanRes.found n bl1 =>
      (some n, { st with blockers := bl1, active := st.active ++ [n] })
  | ScanRes.notFound bl1 => (none, { st with blockers := bl1 })

/-- Result of `LooseStrategy._next_action`: an action to examine,
`StopAsyncIteration`, or no progress possible (the `asyncio.wait` call
never returns because no active future completes — also covering the
`ValueError` of waiting on an empty set). -/
inductive NextRes where
  | action (name : String) (st : StrategyState)
  | stop (st : StrategyState)
  | blocked (st : StrategyState)
  deriving DecidableEq, Repr

/-- `LooseStrategy._next_action`.  The action objects are shared mutable
state in Python, so the stop/blocked outcomes carry the state reached. -/
def nextAction (st : StrategyState) : NextRes :=
  match getMaybeNextAction st with
  | (some n, st1) => NextRes.action n st1
  | (none, st1) =>
      if (st1.active.filter (fun n => (stateOf st1 n).futDone)).isEmpty then
        NextRes.blocked st1
      else
        match getMaybeNextAction
            { st1 with active := st1.active.filter (fun n => !(stateOf st1 n).done) } with
        | (some n, st3) => NextRes.action n st3
        | (none, st3) => NextRes.stop st3

/-- The ancestor inspection in `LooseStrategy.__anext__` (lines 129-136):
the first ancestor whose status is FAILURE or SKIPPED while the dependency
is strict or the strategy forces strictness. -/
def findBadAncestor (net : Net) (strict : Bool) (st : StrategyState)
    (n : String) : Option String :=
  (ancestorsOf net n).findSome? fun p =>
    if ((stateOf st p.1).status == ActionStatus.FAILURE ||
        (stateOf st p.1).status == ActionStatus.SKIPPED) &&
        (p.2.strict || strict) then some p.1 else none

/-- Apply `BaseStrategy._skip_action` to one action of the state. -/
def skipActionIn (st : StrategyState) (n : String) : StrategyState :=
  { st with
    states := st.states.map (fun p => cond (p.1 == n) (p.1, p.2.internalSkip) p) }

/-- Result of `LooseStrategy.__anext__`. -/
inductive AnextRes where
  | emit (name : String) (st : StrategyState)
  | stop (st : StrategyState)
  | blocked (st : StrategyState)
  deriving DecidableEq, Repr

/-- The `while True` loop of `LooseStrategy.__anext__`; each pass pops one
blockers entry, so `st.blockers.length + 1` fuel always suffices. -/
def anextLoop (net : Net) (strict : Bool) : Nat → StrategyState → AnextRes
  | 0, st => AnextRes.blocked st
  | fuel + 1, st =>
      match nextAction st with
      | NextRes.stop st1 => AnextRes.stop st1
      | NextRes.blocked st1 => AnextRes.blocked st1
      | NextRes.action n st1 =>
          match findBadAncestor net strict st1 n with
          | some _ => anextLoop net strict fuel (skipActionIn st1 n)
          | none => AnextRes.emit n st1

/-- Drive one emitted action to completion (`await action` in the caller),
with the given handler behaviour. -/
def completeEmitted (h : HandlerOutcome) (st : StrategyState) (n : String) :
    StrategyState :=
  { st with
    states := st.states.map (fun p => cond (p.1 == n) (p.1, (p.2.awaitAction h).1) p) }

/-- The caller's `async for` loop under the synchronous schedule: take the
next emitted action, await it, repeat; collect emissions in order. -/
def runAll (net : Net) (strict : Bool) (h : HandlerOutcome) :
    Nat → StrategyState → List String → List String × StrategyState
  | 0, st, acc => (acc, st)
  | fuel + 1, st, acc =>
      match anextLoop net strict (st.blockers.length + 1) st with
      | AnextRes.emit n st1 =>
          runAll net strict h fuel (completeEmitted h st1 n) (acc ++ [n])
      | AnextRes.stop st1 => (acc, st1)
      | AnextRes.blocked st1 => (acc, st1)

/-- Initial strategy state (`LooseStrategy.__init__`):
`_action_blockers = {name: set(net[name].ancestors) for name in net}`. -/
def initStrategy (net : Net) : StrategyState :=
  { states := net.map fun p => (p.1, {}),
    blockers := net.map fun p => (p.1, p.2.map Prod.fst),
    active := [] }

lemma getMaybeNextAux_found_perm (dn : List String) :
    ∀ (bl : List (String × List String)) (m : String) bl1,
    getMaybeNextAux dn bl = ScanRes.found m bl1 →
    (m :: bl1.map Prod.fst).Perm (bl.map Prod.fst) := by
  intro bl
  induction bl with
  | nil =>
      intro m bl1 h
      simp [getMaybeNextAux] at h
  | cons hd tl ih =>
      intro m bl1 h
      rw [getMaybeNextAux] at h
      by_cases hf : ((hd.2.filter fun b => !(dn.contains b)).isEmpty : Prop)
      · rw [if_pos hf] at h
        cases h
        exact List.Perm.refl _
      · rw [if_neg hf] at h
        cases hrec : getMaybeNextAux dn tl with
        | found m2 rest1 =>
            rw [hrec] at h
            cases h
            have hp := ih _ _ hrec
            refine List.Perm.trans ?_ (hp.cons hd.1)
            simp only [List.map_cons]
            exact List.Perm.swap _ _ _
        | notFound rest1 =>
            rw [hrec] at h
            cases h

lemma getMaybeNextAux_notFound_keys (dn : List String) :
    ∀ (bl : List (String × List String)) bl1,
    getMaybeNextAux dn bl = ScanRes.notFound bl1 →
    bl1.map Prod.fst = bl.map Prod.fst := by
  intro bl
  induction bl with
  | nil =>
      intro bl1 h
      rw [getMaybeNextAux] at h
      cases h
      rfl
  | cons hd tl ih =>
      intro bl1 h
      rw [getMaybeNextAux] at h
      by_cases hf : ((hd.2.filter fun b => !(dn.contains b)).isEmpty : Prop)
      · rw [if_pos hf] at h
        cases h
      · rw [if_neg hf] at h
        cases hrec : getMaybeNextAux dn tl with
        | found m2 rest1 =>
            rw [hrec] at h
            cases h
        | notFound rest1 =>
            rw [hrec] at h
            cases h
            simpa using ih rest1 hrec

lemma getMaybeNextAction_some_perm (st : StrategyState) (n : String)
    (st1 : StrategyState) (h : getMaybeNextAction st = (some n, st1)) :
    (n :: st1.blockers.map Prod.fst).Perm (st.blockers.map Prod.fst) := by
  rw [getMaybeNextAction] at h
  cases hg : getMaybeNextAux (doneNames st) st.blockers with
  | found m bl1 =>
      rw [hg] at h
      cases h
      exact getMaybeNextAux_found_perm _ _ _ _ hg
  | notFound bl1 =>
      rw [hg] at h
      cases h

lemma getMaybeNextAction_none_keys (st : StrategyState)
    (st1 : StrategyState) (h : getMaybeNextAction st = (none, st1)) :
    st1.blockers.map Prod.fst = st.blockers.map Prod.fst := by
  rw [getMaybeNextAction] at h
  cases hg : getMaybeNextAux (doneNames st) st.blockers with
  | found m bl1 =>
      rw [hg] at h
      cases h
  | notFound bl1 =>
      rw [hg] at h
      cases h
      exact getMaybeNextAux_notFound_keys _ _ _ hg

lemma nextAction_action_perm (st : StrategyState) (n : String)
    (st1 : StrategyState) (h : nextAction st = NextRes.action n st1) :
    (n :: st1.blockers.map Prod.fst).Perm (st.blockers.map Prod.fst) := by
  rw [nextAction] at h
  split at h
  · rename_i o s m hg
    cases h
    exact getMaybeNextAction_some_perm st n st1 hg
  · rename_i o s hg
    split at h
    · cases h
    · split at h
      · rename_i m2 s2 hg2
        cases h
        have h1 := getMaybeNextAction_some_perm _ _ _ hg2
        have h2 := getMaybeNextAction_none_keys st _ hg
        simpa [h2] using h1
      · cases h

lemma skipActionIn_blockers (st : StrategyState) (n : String) :
    (skipActionIn st n).blockers = st.blockers := rfl

lemma anextLoop_emit_mem (net : Net) (strict : Bool) :
    ∀ (fuel : Nat) (st : StrategyState) (m : String) (st2 : StrategyState),
    anextLoop net strict fuel st = AnextRes.emit m st2 →
    m ∈ st.blockers.map Prod.fst := by
  intro fuel
  induction fuel with
  | zero =>
      intro st m st2 h
      rw [anextLoop] at h
      cases h
  | succ k ih =>
      intro st m st2 h
      rw [anextLoop] at h
      split at h
      · cases h
      · cases h
      · rename_i n st1 hn
        have hperm := nextAction_action_perm st n st1 hn
        split at h
        · have hm := ih _ m st2 h
          rw [skipActionIn_blockers] at hm
          exact hperm.mem_iff.mp (List.mem_cons_of_mem _ hm)
        · cases h
          exact hperm.mem_iff.mp (List.mem_cons_self _ _)

lemma lookup_skip_update (n : String) :
    ∀ (l : List (String × ActionState)),
    List.lookup n (l.map fun p => cond (p.1 == n) (p.1, p.2.internalSkip) p)
      = (List.lookup n l).map ActionState.internalSkip := by
  intro l
  induction l with
  | nil => rfl
  | cons hd tl ih =>
      by_cases he : hd.1 = n
      · have h0 : (hd.1 == n) = true := by simpa using he
        have h2 : (n == hd.1) = true := by simpa using he.symm
        simp [List.lookup, h0, h2, ih]
      · have h1 : (hd.1 == n) = false := by simpa using he
        have h2 : (n == hd.1) = false := by
          simpa using fun hc => he hc.symm
        simp [List.lookup, h1, h2, ih]

lemma lookup_of_mem_fst (n : String) :
    ∀ l : List (String × ActionState), n ∈ l.map Prod.fst →
    ∃ a, List.lookup n l = some a := by
  intro l
  induction l with
  | nil =>
      intro h
      simp at h
  | cons hd tl ih =>
      intro h
      rw [List.map_cons] at h
      by_cases he : n = hd.1
      · exact ⟨hd.2, by simp [List.lookup, he]⟩
      · have hbeq : (n == hd.1) = false := by simpa using he
        rcases List.mem_cons.mp h with h1 | h1
        · exact absurd h1 he
        · rcases ih h1 with ⟨a, ha⟩
          exact ⟨a, by simp [List.lookup, hbeq, ha]⟩

lemma stateOf_skipActionIn (st : StrategyState) (n : String)
    (hmem : n ∈ st.states.map Prod.fst) :
    (stateOf (skipActionIn st n) n).status = ActionStatus.SKIPPED := by
  rw [stateOf, skipActionIn]
  simp only [lookup_skip_update]
  rcases lookup_of_mem_fst n st.states hmem with ⟨a, ha⟩
  rw [ha]
  rfl

/-- The all-strict linear chain a→b→c→d→e→f of the claim (the repository's
strategy test fixture `_make_chained_net` with strict dependencies). -/
def chainNet : Net :=
  [("a", []),
   ("b", [("a", { strict := true })]),
   ("c", [("b", { strict := true })]),
   ("d", [("c", { strict := true })]),
   ("e", [("d", { strict := true })]),
   ("f", [("e", { strict := true })])]

/-- Full loose-strategy run over the chain with every handler raising. -/
def chainRun : List String × StrategyState :=
  runAll chainNet false HandlerOutcome.raised 7 (initStrategy chainNet) []

/-- C1: whenever `LooseStrategy.__anext__` (also under a STRICT-forcing
variant) selects an action one of whose ancestors is in FAILURE or SKIPPED
over a strict (or strategy-forced strict) dependency, the loop skips that
action — setting its status to SKIPPED — and continues scheduling instead
of emitting it, and the continuation can never emit the skipped action;
consequently, on the all-strict failing chain a→b→c→d→e→f exactly `a` is
emitted while b..f end SKIPPED without ever running. -/
theorem c1_strict_skip_cascade :
    (∀ (net : Net) (strict : Bool) (fuel : Nat) (st st1 : StrategyState)
        (n anc : String),
        (st.blockers.map Prod.fst).Nodup →
        n ∈ st1.states.map Prod.fst →
        nextAction st = NextRes.action n st1 →
        findBadAncestor net strict st1 n = some anc →
        anextLoop net strict (fuel + 1) st
            = anextLoop net strict fuel (skipActionIn st1 n) ∧
        (stateOf (skipActionIn st1 n) n).status = ActionStatus.SKIPPED ∧
        ∀ (fuel2 : Nat) (m : String) (st2 : StrategyState),
          anextLoop net strict fuel2 (skipActionIn st1 n) = AnextRes.emit m st2 →
          m ≠ n) ∧
    chainRun.1 = ["a"] ∧
    (stateOf chainRun.2 "a").status = ActionStatus.FAILURE ∧
    ∀ x ∈ ["b", "c", "d", "e", "f"],
      (stateOf chainRun.2 x).status = ActionStatus.SKIPPED ∧
      (stateOf chainRun.2 x).ran = false := by
  refine ⟨?_, by decide, by decide, by decide⟩
  intro net strict fuel st st1 n anc hnodup hmem hna hbad
  have hperm := nextAction_action_perm st n st1 hna
  refine ⟨?_, stateOf_skipActionIn st1 n hmem, ?_⟩
  · rw [anextLoop, hna]
    dsimp only
    rw [hbad]
  · intro fuel2 m st2 hm
    have hmm := anextLoop_emit_mem net strict fuel2 _ m st2 hm
    rw [skipActionIn_blockers] at hmm
    have hcons : (n :: st1.blockers.map Prod.fst).Nodup :=
      (hperm.nodup_iff).mpr hnodup
    intro hmn
    exact (List.nodup_cons.mp hcons).1 (hmn ▸ hmm)

/-- Two-action net used to instantiate `c1_strict_skip_cascade`. -/
def wNet : Net := [("x", []), ("y", [("x", { strict := true })])]

/-- State of `wNet` after `x` was emitted and failed. -/
def wState : StrategyState :=
  { states := [("x", { status := ActionStatus.FAILURE, futDone := true, ran := true }),
               ("y", {})],
    blockers := [("y", ["x"])],
    active := [] }

/-- The state `nextAction wState` hands to the ancestor inspection. -/
def wState1 : StrategyState :=
  { wState with blockers := [], active := ["y"] }

/-- C1 (witness): `c1_strict_skip_cascade` instantiated on `wNet`, where
`y`'s strict ancestor `x` has failed. -/
theorem c1_strict_skip_cascade_witness :
    (stateOf (skipActionIn wState1 "y") "y").status = ActionStatus.SKIPPED :=
  (c1_strict_skip_cascade.1 wNet false 0 wState wState1 "y" "x"
    (by decide) (by decide) (by decide) (by decide)).2.1

/-! ### Runner driver (`runner.py`) -/

/-- The part of the `Runner` state touched by `_run_action`:
`_outcomes` and `_had_failed_actions`. -/
structure RunnerState where
  outcomes : List (String × List (String × String)) := []
  hadFailedActions : Bool := false
  deriving DecidableEq, Repr

/-- Dictionary assignment `self._outcomes[action.name] = ...`. -/
def setOutcome :
    List (String × List (String × String)) → String → List (String × String) →
    List (String × List (String × String))
  | [], n, v => [(n, v)]
  | p :: rest, n, v => cond (p.1 == n) ((n, v) :: rest) (p :: setOutcome rest n v)

/-- `Runner._run_action`: render the action's args (`_render_action`, whose
success or failure is the `render` argument); on a rendering exception mark
the action failed (`_internal_fail`) and record a failed action, returning
without awaiting the handler; otherwise `await action` (any exception just
records a failed action) and — in the `finally` block — store
`action.get_outcomes()` into `self._outcomes[action.name]`.  The returned
flag reports whether the handler was awaited. -/
def runAction (st : RunnerState) (act : ActionState) (name : String)
    (render : Except String Unit) (h : HandlerOutcome) :
    RunnerState × ActionState × Bool :=
  match render with
  | Except.error _ =>
      ({ st with hadFailedActions := true }, act.internalFail, false)
  | Except.ok _ =>
      match act.awaitAction h with
      | (act1, raised) =>
          ({ st with
              outcomes := setOutcome st.outcomes name act1.yieldedKeys,
              hadFailedActions := st.hadFailedActions || raised },
           act1, true)

lemma lookup_setOutcome (n : String) (v : List (String × String)) :
    ∀ m : List (String × List (String × String)),
    List.lookup n (setOutcome m n v) = some v := by
  intro m
  induction m with
  | nil => simp [setOutcome, List.lookup]
  | cons p rest ih =>
      by_cases he : p.1 = n
      · have h0 : (p.1 == n) = true := by simpa using he
        simp [setOutcome, h0, List.lookup]
      · have h0 : (p.1 == n) = false := by simpa using he
        have h1 : (n == p.1) = false := by
          simpa using fun hc => he hc.symm
        simp [setOutcome, h0, List.lookup, h1, ih]

/-- C10: whenever the per-action driver reaches the point of awaiting the
action (args rendering succeeded), the action's outcomes snapshot is stored
in the runner's outcomes map under the action's name even if the handler
raises or the action fails; whereas when rendering fails, the handler is
never awaited and the outcomes map is left untouched (so no entry is
stored for that action). -/
theorem c10_outcomes_stored_on_await :
    (∀ (st : RunnerState) (act : ActionState) (name e : String)
        (h : HandlerOutcome),
        runAction st act name (Except.error e) h
          = ({ st with hadFailedActions := true }, act.internalFail, false) ∧
        (runAction st act name (Except.error e) h).1.outcomes = st.outcomes) ∧
    (∀ (st : RunnerState) (act : ActionState) (name : String)
        (h : HandlerOutcome),
        (runAction st act name (Except.ok ()) h).2.2 = true ∧
        List.lookup name (runAction st act name (Except.ok ()) h).1.outcomes
          = some (act.awaitAction h).1.yieldedKeys) := by
  constructor
  · intro st act name e h
    exact ⟨rfl, rfl⟩
  · intro st act name h
    constructor
    · rfl
    · show List.lookup name (setOutcome st.outcomes name _) = _
      exact lookup_setOutcome name _ st.outcomes

/-! ### String template lexing and rendering (`rendering.py`) -/

/-- Rendering failures (`exceptions.py`): `ActionRenderRecursionError` is
a distinct subclass of `ActionRenderError`; a raised exception is an
instance of exactly one constructor here. -/
inductive RenderErr where
  | renderError (msg : String)
  | recursionError (msg : String)
  deriving DecidableEq, Repr

/-- The two lexeme kinds emitted by `TemplarStringLexer` (`TEXT = 0`,
`EXPRESSION = 1`). -/
inductive Lexeme where
  | text (s : List Char)
  | expr (s : List Char)
  deriving DecidableEq, Repr

/-- Python `str.isspace` for the ASCII whitespace characters. -/
def isSpaceChar (c : Char) : Bool :=
  c = ' ' || c = '\t' || c = '\n' || c = '\x0d' || c = '\x0b' || c = '\x0c'

/-- Helper for `readExprSimple`: scan with a brace depth counter,
accumulating token text (whitespace is not a token and is dropped, which
is how the joined `collected_tokens` behave). -/
def readExprGo : Nat → Nat → List Char → List Char → Option (Nat × List Char)
  | _, _, _, [] => none
  | depth, pos, acc, c :: rest =>
      if c = '{' then readExprGo (depth + 1) (pos + 1) (acc ++ [c]) rest
      else if c = '}' then
        if depth = 0 then some (pos, acc)
        else readExprGo (depth - 1) (pos + 1) (acc ++ [c]) rest
      else readExprGo depth (pos + 1) (acc ++ (if isSpaceChar c then [] else [c])) rest

/-- `TemplarStringLexer._read_expression` together with
`ExpressionTokenizer`: find the unbalanced closing brace and return its
position plus the concatenated token strings before it.  The tokenizer
itself wraps Python's stdlib `tokenize`; this model reproduces its
behaviour for expressions free of string literals and comments (the
shapes exercised here), returning `none` when the expression is left
unclosed (the tokenizer's `StopIteration`). -/
def readExprSimple (data : List Char) : Option (Nat × List Char) :=
  readExprGo 0 0 [] data

lemma drop_cons_getD (data : List Char) (caret : Nat) (h : caret < data.length) :
    data.drop caret = data.getD caret ' ' :: data.drop (caret + 1) := by
  rw [List.drop_eq_getElem_cons h]
  rw [List.getD_eq_getElem data ' ' h]

/-- The scanning loop of `TemplarStringLexer.__iter__`: `caret` advances
one symbol per pass (`_get_symbol`), `'@'` toggles `armed_at`, `'{'` while
armed emits the pending text (`data[text_start : caret-2]`, nonempty only)
and the expression read from `data[caret:]`, after which `text_start`
jumps past the closing brace while the caret keeps scanning; on `EOFError`
(or tokenizer exhaustion) the pending tail `data[text_start:]` is emitted
if nonempty.  The fuel only bounds the recursion; `data.length + 1` always
suffices since the caret strictly increases. -/
def lexLoop (readE : List Char → Option (Nat × List Char)) (data : List Char) :
    Nat → Nat → Nat → Bool → List Lexeme
  | fuel, caret, textStart, armed =>
      if data.length ≤ caret then
        if (data.drop textStart).isEmpty then [] else [Lexeme.text (data.drop textStart)]
      else
        match fuel with
        | 0 => []
        | fuel + 1 =>
            if data.getD caret ' ' = '@' then
              lexLoop readE data fuel (caret + 1) textStart (!armed)
            else if data.getD caret ' ' = '{' && armed then
              match readE (data.drop (caret + 1)) with
              | none =>
                  if (data.drop textStart).isEmpty then []
                  else [Lexeme.text (data.drop textStart)]
              | some (elen, e) =>
                  (if ((data.take (caret - 1)).drop textStart).isEmpty then []
                   else [Lexeme.text ((data.take (caret - 1)).drop textStart)]) ++
                  Lexeme.expr e ::
                    lexLoop readE data fuel (caret + 1) (caret + elen + 2) false
            else lexLoop readE data fuel (caret + 1) textStart false

/-- `TemplarStringLexer(data)` iterated to a list. -/
def templarStringLexer (readE : List Char → Option (Nat × List Char))
    (data : List Char) : List Lexeme :=
  lexLoop readE data (data.length + 1) 0 0 false

/-- Joining the lexemes back, evaluating expression lexemes
(`Templar.render`'s loop over the lexer). -/
def renderChunks (evalE : List Char → Except RenderErr (List Char)) :
    List Lexeme → Except RenderErr (List Char)
  | [] => Except.ok []
  | Lexeme.text s :: rest =>
      match renderChunks evalE rest with
      | Except.ok r => Except.ok (s ++ r)
      | Except.error e => Except.error e
  | Lexeme.expr s :: rest =>
      match evalE s with
      | Except.error e => Except.error e
      | Except.ok v =>
          match renderChunks evalE rest with
          | Except.ok r => Except.ok (v ++ r)
          | Except.error e => Except.error e

/-- `Templar.render`, parameterized by the expression evaluator
(`_string_template_process_expression`) and the expression reader. -/
def renderT (readE : List Char → Option (Nat × List Char))
    (evalE : List Char → Except RenderErr (List Char))
    (value : List Char) : Except RenderErr (List Char) :=
  renderChunks evalE (templarStringLexer readE value)

/-- Python `s.replace("@", "@@")`. -/
def escapeAt : List Char → List Char
  | [] => []
  | c :: rest => (if c = '@' then ['@', '@'] else [c]) ++ escapeAt rest

/-- Safety of a scan suffix: walking these characters from the given
armed state never meets `'{'` while armed. -/
def scanSafe : List Char → Bool → Prop
  | [], _ => True
  | c :: rest, armed =>
      if c = '@' then scanSafe rest (!armed)
      else ((c = '{' → armed = false) ∧ scanSafe rest false)

lemma lexLoop_safe (readE : List Char → Option (Nat × List Char))
    (data : List Char) :
    ∀ (fuel caret textStart : Nat) (armed : Bool),
    data.length ≤ fuel + caret →
    scanSafe (data.drop caret) armed →
    lexLoop readE data fuel caret textStart armed
      = if (data.drop textStart).isEmpty then []
        else [Lexeme.text (data.drop textStart)] := by
  intro fuel
  induction fuel with
  | zero =>
      intro caret textStart armed hf _
      rw [lexLoop]
      rw [if_pos (by omega)]
  | succ k ih =>
      intro caret textStart armed hf hsafe
      rw [lexLoop]
      by_cases hc : data.length ≤ caret
      · rw [if_pos hc]
      · rw [if_neg hc]
        have hlt : caret < data.length := by omega
        rw [drop_cons_getD data caret hlt] at hsafe
        by_cases hat : data.getD caret ' ' = '@'
        · rw [scanSafe, if_pos hat] at hsafe
          simp only [hat, if_pos rfl]
          exact ih (caret + 1) textStart (!armed) (by omega) hsafe
        · rw [scanSafe, if_neg hat] at hsafe
          rw [if_neg hat]
          have hbrace : ((data.getD caret ' ' = '{') && armed) = false := by
            by_cases hb : data.getD caret ' ' = '{'
            · rw [hsafe.1 hb, Bool.and_false]
            · rw [decide_eq_false hb, Bool.false_and]
          rw [hbrace]
          simp only [Bool.false_eq_true, if_false]
          exact ih (caret + 1) textStart false (by omega) hsafe.2

lemma scanSafe_escapeAt : ∀ s : List Char, scanSafe (escapeAt s) false := by
  intro s
  induction s with
  | nil => trivial
  | cons c rest ih =>
      by_cases hc : c = '@'
      · simpa [escapeAt, hc, scanSafe] using ih
      · have hstep : scanSafe (c :: escapeAt rest) false := by
          rw [scanSafe, if_neg hc]
          exact ⟨fun _ => rfl, ih⟩
        simpa [escapeAt, hc] using hstep

/-- The identity expression evaluator, used only to close counterexample
statements (the escaped inputs never reach it). -/
def evalIdent : List Char → Except RenderErr (List Char) :=
  fun e => Except.ok e

/-- C8 (counterexample): the escape law fails at `s = "@"`: rendering
`s.replace("@","@@") = "@@"` returns `"@@"` — the doubled `@` is not
collapsed back to a single `@` (exactly what the repository's own test
`test_at_sign_escape_rendering` asserts). -/
theorem c8_escape_law_counterexample :
    renderT readExprSimple evalIdent (escapeAt ['@']) = Except.ok ['@', '@'] ∧
    Except.ok ['@', '@'] ≠ (Except.ok ['@'] : Except RenderErr (List Char)) := by
  refine ⟨rfl, ?_⟩
  intro h
  rcases h with h
  simp at h

/-- C8 (amended): for every string `s`, rendering `s.replace("@","@@")`
yields `s.replace("@","@@")` unchanged — doubling the `@` does prevent
expression evaluation (the lexer emits no expression lexeme, for any
expression reader and evaluator), but the doubled `@` is preserved
verbatim in the output rather than collapsed back to a single `@`. -/
theorem c8_escape_passthrough
    (readE : List Char → Option (Nat × List Char))
    (evalE : List Char → Except RenderErr (List Char)) (s : List Char) :
    renderT readE evalE (escapeAt s) = Except.ok (escapeAt s) ∧
    ∀ l ∈ templarStringLexer readE (escapeAt s), ∃ t, l = Lexeme.text t := by
  have hlex : templarStringLexer readE (escapeAt s)
      = if (escapeAt s).isEmpty then [] else [Lexeme.text (escapeAt s)] := by
    rw [templarStringLexer]
    have := lexLoop_safe readE (escapeAt s) ((escapeAt s).length + 1) 0 0 false
      (by omega) (by simpa using scanSafe_escapeAt s)
    simpa using this
  constructor
  · rw [renderT, hlex]
    by_cases he : (escapeAt s).isEmpty
    · rw [if_pos he]
      have : escapeAt s = [] := List.isEmpty_iff.mp he
      rw [this]
      rfl
    · rw [if_neg he]
      simp [renderChunks]
  · intro l hl
    rw [hlex] at hl
    by_cases he : (escapeAt s).isEmpty
    · rw [if_pos he] at hl
      cases hl
    · rw [if_neg he] at hl
      rcases List.mem_singleton.mp hl with h
      exact ⟨escapeAt s, h⟩

/-! ### Emission scanning (`EmissionScannerActionBase` in `actions/base.py`)

Messages are byte strings (`List Nat`, one entry per byte) since the
sentinel protocol base64-encodes the UTF-8 bytes of keys and values. -/

/-- Byte strings. -/
abbrev ByteStr := List Nat

/-- Bytes of an ASCII string literal. -/
def strBytes (s : String) : ByteStr :=
  s.toList.map Char.toNat

/-- The base64 alphabet (RFC 4648, as used by Python's `base64`). -/
def b64char (i : Nat) : Nat :=
  if i < 26 then 65 + i
  else if i < 52 then 97 + (i - 26)
  else if i < 62 then 48 + (i - 52)
  else if i = 62 then 43
  else 47

/-- Inverse of the base64 alphabet; `none` on a non-alphabet byte
(which `base64.b64decode(..., validate=True)` rejects). -/
def b64invChar (c : Nat) : Option Nat :=
  if 65 ≤ c ∧ c ≤ 90 then some (c - 65)
  else if 97 ≤ c ∧ c ≤ 122 then some (c - 71)
  else if 48 ≤ c ∧ c ≤ 57 then some (c + 4)
  else if c = 43 then some 62
  else if c = 47 then some 63
  else none

/-- `base64.b64encode` on bytes: 3-byte groups to 4 alphabet bytes with
`'='` (61) padding. -/
def b64encode : ByteStr → ByteStr
  | [] => []
  | [x] => [b64char (x / 4), b64char (x % 4 * 16), 61, 61]
  | [x, y] => [b64char (x / 4), b64char (x % 4 * 16 + y / 16), b64char (y % 16 * 4), 61]
  | x :: y :: z :: rest =>
      b64char (x / 4) :: b64char (x % 4 * 16 + y / 16) ::
      b64char (y % 16 * 4 + z / 64) :: b64char (z % 64) :: b64encode rest

/-- `base64.b64decode(data, validate=True)`: the length must be a multiple
of four, every byte must be from the alphabet except `'='` padding at the
very end, and each 4-byte block decodes to 3 (or finally 2 or 1) bytes;
`none` models the raised `binascii.Error`. -/
def b64decodeValidate : ByteStr → Option ByteStr
  | [] => some []
  | c1 :: c2 :: c3 :: c4 :: rest =>
      match b64invChar c1, b64invChar c2 with
      | some a, some b =>
          if c3 = 61 then
            if c4 = 61 ∧ rest = [] then some [a * 4 + b / 16] else none
          else
            match b64invChar c3 with
            | some c =>
                if c4 = 61 then
                  if rest = [] then some [a * 4 + b / 16, b % 16 * 16 + c / 4]
                  else none
                else
                  match b64invChar c4, b64decodeValidate rest with
                  | some d, some tail =>
                      some ((a * 4 + b / 16) :: (b % 16 * 16 + c / 4) ::
                            (c % 4 * 64 + d) :: tail)
                  | _, _ => none
            | none => none
      | _, _ => none
  | _ => none

lemma b64invChar_b64char (i : Nat) (h : i < 64) :
    b64invChar (b64char i) = some i := by
  unfold b64char b64invChar
  split_ifs <;> simp_all <;> omega

lemma b64char_ne_61 (i : Nat) (h : i < 64) : b64char i ≠ 61 := by
  unfold b64char
  split_ifs <;> omega

lemma b64_roundtrip_aux (n : Nat) :
    ∀ s : ByteStr, s.length ≤ n → (∀ b ∈ s, b < 256) →
    b64decodeValidate (b64encode s) = some s := by
  induction n with
  | zero =>
      intro s hl _
      have : s = [] := List.length_eq_zero.mp (by omega)
      subst this
      rfl
  | succ k ih =>
      intro s hl hb
      match s with
      | [] => rfl
      | [x] =>
          have hx : x < 256 := hb x (by simp)
          rw [b64encode, b64decodeValidate]
          rw [b64invChar_b64char _ (by omega), b64invChar_b64char _ (by omega)]
          dsimp only
          rw [if_pos rfl, if_pos ⟨rfl, rfl⟩]
          have h1 : x / 4 * 4 + x % 4 * 16 / 16 = x := by omega
          rw [h1]
      | [x, y] =>
          have hx : x < 256 := hb x (by simp)
          have hy : y < 256 := hb y (by simp)
          rw [b64encode, b64decodeValidate]
          rw [b64invChar_b64char _ (by omega), b64invChar_b64char _ (by omega)]
          dsimp only
          rw [if_neg (b64char_ne_61 _ (by omega))]
          rw [b64invChar_b64char _ (by omega)]
          dsimp only
          rw [if_pos rfl, if_pos rfl]
          have h1 : x / 4 * 4 + (x % 4 * 16 + y / 16) / 16 = x := by omega
          have h2 : (x % 4 * 16 + y / 16) % 16 * 16 + y % 16 * 4 / 4 = y := by omega
          rw [h1, h2]
      | x :: y :: z :: rest =>
          have hx : x < 256 := hb x (by simp)
          have hy : y < 256 := hb y (by simp)
          have hz : z < 256 := hb z (by simp)
          have hrest : ∀ b ∈ rest, b < 256 := fun b hbm => hb b (by simp [hbm])
          have hlen : rest.length ≤ k := by
            simp only [List.length_cons] at hl
            omega
          rw [b64encode, b64decodeValidate]
          rw [b64invChar_b64char _ (by omega), b64invChar_b64char _ (by omega)]
          dsimp only
          rw [if_neg (b64char_ne_61 _ (by omega))]
          rw [b64invChar_b64char _ (by omega)]
          dsimp only
          rw [if_neg (b64char_ne_61 _ (by omega))]
          rw [b64invChar_b64char _ (by omega)]
          rw [ih rest hlen hrest]
          dsimp only
          have h1 : x / 4 * 4 + (x % 4 * 16 + y / 16) / 16 = x := by omega
          have h2 : (x % 4 * 16 + y / 16) % 16 * 16 + (y % 16 * 4 + z / 64) / 4 = y := by
            omega
          have h3 : (y % 16 * 4 + z / 64) % 4 * 64 + z % 64 = z := by omega
          rw [h1, h2, h3]

/-- Round trip: decoding with validation inverts encoding on byte strings. -/
lemma b64_roundtrip (s : ByteStr) (hb : ∀ b ∈ s, b < 256) :
    b64decodeValidate (b64encode s) = some s :=
  b64_roundtrip_aux s.length s (Nat.le_refl _) hb

/-- Python regex `\s` over ASCII bytes. -/
def isSpaceByte (b : Nat) : Bool :=
  b = 32 || b = 9 || b = 10 || b = 13 || b = 11 || b = 12

/-- Maximal non-whitespace runs of a byte string, in order (`cur` is the
run being accumulated, `acc` the finished runs). -/
def tokensGo : ByteStr → List ByteStr → ByteStr → List ByteStr
  | cur, acc, [] => if cur.isEmpty then acc else acc ++ [cur]
  | cur, acc, b :: rest =>
      if isSpaceByte b then
        if cur.isEmpty then tokensGo [] acc rest
        else tokensGo [] (acc ++ [cur]) rest
      else tokensGo (cur ++ [b]) acc rest

def tokensOf (u : ByteStr) : List ByteStr := tokensGo [] [] u

/-- Whether the byte string ends in whitespace. -/
def trailingSpace (u : ByteStr) : Bool :=
  match u.getLast? with
  | some b => isSpaceByte b
  | none => false

/-- Matching of `\s*(\S+)\s+(\S*)\s*]##$` against the text following the
literal header of `_YIELD_SCAN_PATTERN`: the text must end in `]##`
(anchored by `$`), and the part before it must consist of exactly two
non-whitespace runs (the greedy groups take whole runs), or one run
followed by at least one whitespace so that `(\S*)` matches empty. -/
def tailMatch (rest : ByteStr) : Option (ByteStr × ByteStr) :=
  if 3 ≤ rest.length ∧ rest.drop (rest.length - 3) = [93, 35, 35] then
    match tokensOf (rest.take (rest.length - 3)),
          trailingSpace (rest.take (rest.length - 3)) with
    | [a, b], _ => some (a, b)
    | [a], true => some (a, [])
    | _, _ => none
  else none

/-- The literal part of `_YIELD_SCAN_PATTERN`:
`##cjunct[yield-outcome-b64` as bytes. -/
def sentinelHeader : ByteStr := strBytes "##cjunct[yield-outcome-b64"

/-- `_YIELD_SCAN_PATTERN.findall(line)` reduced to the single possible
match of the `^(.*?)…$`-anchored pattern: the lazy leading group takes
the smallest prefix (accumulated in `pre`) after which the literal header
and the anchored tail match through end of line. -/
def scanLine : ByteStr → ByteStr → Option (ByteStr × ByteStr × ByteStr)
  | _, [] => none
  | pre, b :: tail =>
      if (b :: tail).take sentinelHeader.length = sentinelHeader then
        match tailMatch ((b :: tail).drop sentinelHeader.length) with
        | some (k, v) => some (pre, k, v)
        | none => scanLine (pre ++ [b]) tail
      else scanLine (pre ++ [b]) tail

/-- Python `str.splitlines` restricted to `\n` separators (the only line
break occurring in the byte strings considered here). -/
def splitLinesGo : ByteStr → ByteStr → List ByteStr
  | cur, [] => if cur.isEmpty then [] else [cur]
  | cur, b :: rest =>
      if b = 10 then cur :: splitLinesGo [] rest
      else splitLinesGo (cur ++ [b]) rest

def splitLines (s : ByteStr) : List ByteStr := splitLinesGo [] s

/-- An emitted message: ordinary (stdout-like) or `Stderr`-tagged. -/
inductive Emission where
  | stdout (s : ByteStr)
  | stderr (s : ByteStr)
  deriving DecidableEq, Repr

/-- The state of an `EmissionScannerActionBase` touched by `emit`:
`_yielded_keys` and the event queue contents. -/
structure EmitState where
  outcomes : List (ByteStr × ByteStr) := []
  events : List Emission := []
  deriving DecidableEq, Repr

/-- `yield_outcome`: dictionary assignment `_yielded_keys[key] = value`. -/
def setOutcomeBytes : List (ByteStr × ByteStr) → ByteStr → ByteStr →
    List (ByteStr × ByteStr)
  | [], k, v => [(k, v)]
  | p :: rest, k, v => cond (p.1 == k) ((k, v) :: rest) (p :: setOutcomeBytes rest k v)

/-- `line.endswith("]##")`. -/
def endsSentinelClose (line : ByteStr) : Bool :=
  line.reverse.take 3 == [35, 35, 93]

/-- The per-line loop of `EmissionScannerActionBase.emit`: a line passing
the `endswith` check and the regex accumulates its preceding content into
`memorized_prefix` and has its key/value base64-decoded (a decode failure
is logged and nothing recorded); other lines are forwarded with the
memorized content prepended; a trailing memorized content is forwarded
alone. -/
def processLines : EmitState → ByteStr → List ByteStr → EmitState
  | st, memoPre, [] =>
      if memoPre.isEmpty then st
      else { st with events := st.events ++ [Emission.stdout memoPre] }
  | st, memoPre, line :: rest =>
      if endsSentinelClose line then
        match scanLine [] line with
        | some (pre, ek, ev) =>
            match b64decodeValidate ek with
            | none => processLines st (memoPre ++ pre) rest
            | some k =>
                match b64decodeValidate ev with
                | none => processLines st (memoPre ++ pre) rest
                | some v =>
                    processLines
                      { st with outcomes := setOutcomeBytes st.outcomes k v }
                      (memoPre ++ pre) rest
        | none =>
            processLines
              { st with events := st.events ++ [Emission.stdout (memoPre ++ line)] }
              [] rest
      else
        processLines
          { st with events := st.events ++ [Emission.stdout (memoPre ++ line)] }
          [] rest

/-- `EmissionScannerActionBase.emit`: `Stderr` messages are forwarded
unscanned; others are scanned line by line. -/
def emitScan (st : EmitState) (msg : Emission) : EmitState :=
  match msg with
  | Emission.stderr s => { st with events := st.events ++ [Emission.stderr s] }
  | Emission.stdout s => processLines st [] (splitLines s)

lemma tokensGo_nonspace :
    ∀ (A : ByteStr), (∀ b ∈ A, isSpaceByte b = false) →
    ∀ (cur : ByteStr) (acc : List ByteStr) (rest : ByteStr),
    tokensGo cur acc (A ++ rest) = tokensGo (cur ++ A) acc rest := by
  intro A
  induction A with
  | nil =>
      intro _ cur acc rest
      simp
  | cons b tl ih =>
      intro hA cur acc rest
      have hb : isSpaceByte b = false := hA b (by simp)
      rw [List.cons_append, tokensGo, hb]
      simp only [Bool.false_eq_true, if_false]
      rw [ih (fun x hx => hA x (by simp [hx])) (cur ++ [b]) acc rest]
      congr 1
      simp

lemma tokensGo_run (K : ByteStr) (hK : K ≠ [])
    (hKs : ∀ b ∈ K, isSpaceByte b = false) (acc : List ByteStr) :
    tokensGo [] acc K = acc ++ [K] := by
  have h0 : tokensGo [] acc (K ++ []) = tokensGo ([] ++ K) acc [] :=
    tokensGo_nonspace K hKs [] acc []
  rw [List.append_nil, List.nil_append] at h0
  rw [h0, tokensGo, if_neg (by simpa using hK)]

lemma tokensOf_sentinel_two (K V : ByteStr) (hK : K ≠ []) (hV : V ≠ [])
    (hKs : ∀ b ∈ K, isSpaceByte b = false)
    (hVs : ∀ b ∈ V, isSpaceByte b = false) :
    tokensOf (32 :: (K ++ 32 :: V)) = [K, V] := by
  rw [tokensOf, tokensGo]
  simp only [show isSpaceByte 32 = true from rfl, if_true, List.isEmpty_nil]
  rw [tokensGo_nonspace K hKs [] [] (32 :: V), List.nil_append]
  rw [tokensGo]
  simp only [show isSpaceByte 32 = true from rfl, if_true]
  rw [if_neg (by simpa using hK)]
  exact tokensGo_run V hV hVs [K]

lemma tokensOf_sentinel_one (K : ByteStr) (hK : K ≠ [])
    (hKs : ∀ b ∈ K, isSpaceByte b = false) :
    tokensOf (32 :: (K ++ [32])) = [K] := by
  rw [tokensOf, tokensGo]
  simp only [show isSpaceByte 32 = true from rfl, if_true, List.isEmpty_nil]
  rw [tokensGo_nonspace K hKs [] [] [32], List.nil_append]
  rw [tokensGo]
  simp only [show isSpaceByte 32 = true from rfl, if_true]
  rw [if_neg (by simpa using hK)]
  rfl

lemma tailMatch_sentinel (K V : ByteStr) (hK : K ≠ [])
    (hKs : ∀ b ∈ K, isSpaceByte b = false)
    (hVs : ∀ b ∈ V, isSpaceByte b = false) :
    tailMatch ((32 :: (K ++ 32 :: V)) ++ [93, 35, 35]) = some (K, V) := by
  have hlen : ((32 :: (K ++ 32 :: V)) ++ [93, 35, 35]).length - 3
      = (32 :: (K ++ 32 :: V)).length := by
    simp
    omega
  rw [tailMatch]
  rw [if_pos ?hc]
  case hc =>
    constructor
    · simp
      omega
    · rw [hlen]
      exact List.drop_left _ _
  rw [hlen, List.take_left]
  cases V with
  | nil =>
      rw [tokensOf_sentinel_one K hK hKs]
      have ht : trailingSpace (32 :: (K ++ [32])) = true := by
        rw [trailingSpace]
        have hg : (32 :: (K ++ [32])).getLast? = some 32 := by
          rw [show (32 :: (K ++ [32])) = (32 :: K) ++ [32] from by simp]
          exact List.getLast?_concat _
        rw [hg]
        rfl
      rw [ht]
  | cons b tl =>
      rw [tokensOf_sentinel_two K (b :: tl) hK (by simp) hKs hVs]

lemma scanLine_skip :
    ∀ (p : ByteStr), (∀ b ∈ p, b ≠ 35) →
    ∀ (pre rest : ByteStr),
    scanLine pre (p ++ rest) = scanLine (pre ++ p) rest := by
  intro p
  induction p with
  | nil =>
      intro _ pre rest
      simp
  | cons b tl ih =>
      intro hp pre rest
      have hb : b ≠ 35 := hp b (by simp)
      rw [List.cons_append, scanLine]
      rw [if_neg ?hne]
      case hne =>
        intro hc
        have h35 : sentinelHeader = 35 :: strBytes "#cjunct[yield-outcome-b64" := rfl
        rw [show sentinelHeader.length = 25 + 1 from rfl, List.take_succ_cons, h35] at hc
        exact hb (List.head_eq_of_cons_eq hc)
      rw [ih (fun x hx => hp x (by simp [hx])) (pre ++ [b]) rest]
      congr 1
      simp

lemma scanLine_header (pre t0 : ByteStr) (k v : ByteStr)
    (htm : tailMatch t0 = some (k, v)) :
    scanLine pre (sentinelHeader ++ t0) = some (pre, k, v) := by
  have hform : sentinelHeader ++ t0
      = 35 :: (strBytes "#cjunct[yield-outcome-b64" ++ t0) := rfl
  rw [hform, scanLine]
  rw [if_pos ?hc]
  case hc =>
    rw [← hform]
    exact List.take_left _ _
  have hd : (35 :: (strBytes "#cjunct[yield-outcome-b64" ++ t0)).drop
      sentinelHeader.length = t0 := by
    rw [← hform]
    exact List.drop_left _ _
  rw [hd, htm]

lemma splitLinesGo_nonewline :
    ∀ (s : ByteStr), (∀ b ∈ s, b ≠ 10) →
    ∀ (cur : ByteStr),
    splitLinesGo cur s = if (cur ++ s).isEmpty then [] else [cur ++ s] := by
  intro s
  induction s with
  | nil =>
      intro _ cur
      simp [splitLinesGo]
  | cons b tl ih =>
      intro hs cur
      have hb : b ≠ 10 := hs b (by simp)
      rw [splitLinesGo, if_neg hb]
      rw [ih (fun x hx => hs x (by simp [hx])) (cur ++ [b])]
      simp

lemma splitLines_single (s : ByteStr) (hne : s ≠ [])
    (hs : ∀ b ∈ s, b ≠ 10) : splitLines s = [s] := by
  rw [splitLines, splitLinesGo_nonewline s hs []]
  simp [hne]

lemma endsSentinelClose_append (u : ByteStr) :
    endsSentinelClose (u ++ [93, 35, 35]) = true := by
  rw [endsSentinelClose, List.reverse_append]
  rfl

lemma b64char_bound (i : Nat) : 43 ≤ b64char i ∧ b64char i ≤ 122 := by
  unfold b64char
  split_ifs <;> omega

lemma not_space_of_ge (b : Nat) (h : 43 ≤ b) : isSpaceByte b = false := by
  cases hs : isSpaceByte b with
  | false => rfl
  | true =>
      exfalso
      simp [isSpaceByte] at hs
      omega

lemma b64char_nonspace (i : Nat) : isSpaceByte (b64char i) = false :=
  not_space_of_ge _ (b64char_bound i).1

lemma b64encode_nonspace_aux (n : Nat) :
    ∀ s : ByteStr, s.length ≤ n → ∀ b ∈ b64encode s, isSpaceByte b = false := by
  induction n with
  | zero =>
      intro s hl b hb
      have : s = [] := List.length_eq_zero.mp (by omega)
      subst this
      simp [b64encode] at hb
  | succ k ih =>
      intro s hl b hb
      match s with
      | [] => simp [b64encode] at hb
      | [x] =>
          simp only [b64encode, List.mem_cons, List.not_mem_nil, or_false] at hb
          rcases hb with h | h | h | h <;> subst h <;>
            first
              | exact b64char_nonspace _
              | rfl
      | [x, y] =>
          simp only [b64encode, List.mem_cons, List.not_mem_nil, or_false] at hb
          rcases hb with h | h | h | h <;> subst h <;>
            first
              | exact b64char_nonspace _
              | rfl
      | x :: y :: z :: rest =>
          simp only [b64encode, List.mem_cons] at hb
          rcases hb with h | h | h | h | h
          · subst h; exact b64char_nonspace _
          · subst h; exact b64char_nonspace _
          · subst h; exact b64char_nonspace _
          · subst h; exact b64char_nonspace _
          · exact ih rest (by simp at hl; omega) b h

lemma b64encode_nonspace (s : ByteStr) :
    ∀ b ∈ b64encode s, isSpaceByte b = false :=
  b64encode_nonspace_aux s.length s (Nat.le_refl _)

lemma b64encode_ne_nil (s : ByteStr) (h : s ≠ []) : b64encode s ≠ [] := by
  match s with
  | [] => exact absurd rfl h
  | [x] => simp [b64encode]
  | [x, y] => simp [b64encode]
  | x :: y :: z :: rest => simp [b64encode]

/-- Bytes of `"prefix "`. -/
def pfxBytes : ByteStr := strBytes "prefix "

/-- The sentinel line `prefix ##cjunct[yield-outcome-b64 <K> <V>]##`. -/
def sentinelLine (K V : ByteStr) : ByteStr :=
  pfxBytes ++ (sentinelHeader ++ ((32 :: (K ++ 32 :: V)) ++ [93, 35, 35]))

lemma scanLine_sentinelLine (K V : ByteStr) (hK : K ≠ [])
    (hKs : ∀ b ∈ K, isSpaceByte b = false)
    (hVs : ∀ b ∈ V, isSpaceByte b = false) :
    scanLine [] (sentinelLine K V) = some (pfxBytes, K, V) := by
  rw [sentinelLine]
  rw [scanLine_skip pfxBytes (by decide) [] _]
  rw [List.nil_append]
  exact scanLine_header _ _ _ _ (tailMatch_sentinel K V hK hKs hVs)

lemma sentinelLine_ends (K V : ByteStr) :
    endsSentinelClose (sentinelLine K V) = true := by
  have h : sentinelLine K V
      = (pfxBytes ++ sentinelHeader ++ (32 :: (K ++ 32 :: V))) ++ [93, 35, 35] := by
    rw [sentinelLine]
    simp [List.append_assoc]
  rw [h]
  exact endsSentinelClose_append _

lemma sentinelLine_no_newline (K V : ByteStr)
    (hKs : ∀ b ∈ K, isSpaceByte b = false)
    (hVs : ∀ b ∈ V, isSpaceByte b = false) :
    ∀ b ∈ sentinelLine K V, b ≠ 10 := by
  intro b hb he
  subst he
  rw [sentinelLine] at hb
  simp only [List.mem_append, List.mem_cons, List.not_mem_nil, or_false] at hb
  rcases hb with h | h | (h | h | h | h) | h | h | h
  · exact absurd h (by decide)
  · exact absurd h (by decide)
  · omega
  · simpa [isSpaceByte] using hKs 10 h
  · omega
  · simpa [isSpaceByte] using hVs 10 h
  · omega
  · omega
  · omega

lemma sentinelLine_ne_nil (K V : ByteStr) : sentinelLine K V ≠ [] := by
  rw [sentinelLine, pfxBytes]
  intro h
  have := congrArg List.length h
  simp at this

lemma lookup_setOutcomeBytes (k : ByteStr) (v : ByteStr) :
    ∀ m : List (ByteStr × ByteStr),
    List.lookup k (setOutcomeBytes m k v) = some v := by
  intro m
  induction m with
  | nil => simp [setOutcomeBytes, List.lookup]
  | cons p rest ih =>
      by_cases he : p.1 = k
      · have h0 : (p.1 == k) = true := by simpa using he
        simp [setOutcomeBytes, h0, List.lookup]
      · have h0 : (p.1 == k) = false := by simpa using he
        have h1 : (k == p.1) = false := by
          simpa using fun hc => he hc.symm
        simp [setOutcomeBytes, h0, List.lookup, h1, ih]

/-- Outcome of processing the single sentinel line when both parts decode. -/
lemma processLines_sentinelLine (st : EmitState) (K V k v : ByteStr)
    (hK : K ≠ []) (hKs : ∀ b ∈ K, isSpaceByte b = false)
    (hVs : ∀ b ∈ V, isSpaceByte b = false)
    (hk : b64decodeValidate K = some k) (hv : b64decodeValidate V = some v) :
    processLines st [] [sentinelLine K V]
      = { st with outcomes := setOutcomeBytes st.outcomes k v,
                  events := st.events ++ [Emission.stdout pfxBytes] } := by
  rw [processLines, sentinelLine_ends K V]
  simp only [if_true]
  rw [scanLine_sentinelLine K V hK hKs hVs]
  dsimp only
  rw [hk]
  dsimp only
  rw [hv]
  dsimp only
  rw [processLines]
  rw [List.nil_append, if_neg (by rw [pfxBytes]; decide)]

/-- Outcome of processing the single sentinel line when a part fails to
decode: the preceding content is still memorized and forwarded, nothing
recorded. -/
lemma processLines_sentinelLine_bad (st : EmitState) (K V : ByteStr)
    (hK : K ≠ []) (hKs : ∀ b ∈ K, isSpaceByte b = false)
    (hVs : ∀ b ∈ V, isSpaceByte b = false)
    (hbad : b64decodeValidate K = none ∨ b64decodeValidate V = none) :
    processLines st [] [sentinelLine K V]
      = { st with events := st.events ++ [Emission.stdout pfxBytes] } := by
  rw [processLines, sentinelLine_ends K V]
  simp only [if_true]
  rw [scanLine_sentinelLine K V hK hKs hVs]
  dsimp only
  rcases hbad with hb | hb
  · rw [hb]
    dsimp only
    rw [processLines]
    rw [List.nil_append, if_neg (by rw [pfxBytes]; decide)]
  · cases hdk : b64decodeValidate K with
    | none =>
        dsimp only
        rw [processLines]
        rw [List.nil_append, if_neg (by rw [pfxBytes]; decide)]
    | some k0 =>
        dsimp only
        rw [hb]
        dsimp only
        rw [processLines]
        rw [List.nil_append, if_neg (by rw [pfxBytes]; decide)]

/-- C6 (amended): emitting a non-stderr message that is the single line
`prefix ##cjunct[yield-outcome-b64 <b64(k)> <b64(v)>]##` with a
**nonempty** key records `outcomes[k] = v` and forwards exactly
`"prefix "` (sentinel stripped, preceding text preserved); stderr-tagged
emissions are forwarded unchanged and never scanned.  (For an empty key,
`b64(k)` is empty and the `\S+` group cannot match, so the line is
forwarded verbatim — see the counterexample.) -/
theorem c6_sentinel_outcome (st : EmitState) (k v : ByteStr) (hk : k ≠ [])
    (hkb : ∀ b ∈ k, b < 256) (hvb : ∀ b ∈ v, b < 256) :
    emitScan st (Emission.stdout (sentinelLine (b64encode k) (b64encode v)))
      = { st with outcomes := setOutcomeBytes st.outcomes k v,
                  events := st.events ++ [Emission.stdout pfxBytes] } ∧
    List.lookup k (setOutcomeBytes st.outcomes k v) = some v ∧
    ∀ (st2 : EmitState) (s : ByteStr),
      emitScan st2 (Emission.stderr s)
        = { st2 with events := st2.events ++ [Emission.stderr s] } := by
  refine ⟨?_, lookup_setOutcomeBytes k v st.outcomes, fun st2 s => rfl⟩
  show processLines st [] (splitLines _) = _
  rw [splitLines_single _ (sentinelLine_ne_nil _ _)
    (sentinelLine_no_newline _ _ (b64encode_nonspace k) (b64encode_nonspace v))]
  exact processLines_sentinelLine st _ _ k v (b64encode_ne_nil k hk)
    (b64encode_nonspace k) (b64encode_nonspace v)
    (b64_roundtrip k hkb) (b64_roundtrip v hvb)

/-- C6 (witness): `c6_sentinel_outcome` instantiated at `k = "key"`,
`v = "value"`. -/
theorem c6_sentinel_outcome_witness :
    emitScan {} (Emission.stdout
        (sentinelLine (b64encode (strBytes "key")) (b64encode (strBytes "value"))))
      = { ({} : EmitState) with
          outcomes := setOutcomeBytes ({} : EmitState).outcomes
            (strBytes "key") (strBytes "value"),
          events := ({} : EmitState).events ++ [Emission.stdout pfxBytes] } :=
  (c6_sentinel_outcome {} (strBytes "key") (strBytes "value")
    (by decide) (by decide) (by decide)).1

/-- C6 (counterexample): for the empty key, the sentinel line
`prefix ##cjunct[yield-outcome-b64  eA==]##` (with `b64("") = ""`) does
not match `\S+`, so no outcome is recorded and the event forwarded is the
whole line verbatim, not `"prefix "`. -/
theorem c6_empty_key_counterexample :
    emitScan {} (Emission.stdout
        (sentinelLine (b64encode []) (b64encode (strBytes "x"))))
      = { outcomes := [],
          events := [Emission.stdout
            (sentinelLine (b64encode []) (b64encode (strBytes "x")))] } ∧
    sentinelLine (b64encode []) (b64encode (strBytes "x")) ≠ pfxBytes := by
  refine ⟨rfl, by decide⟩

/-- C7 (amended): a non-stderr line carrying a sentinel whose key or value
fails to decode is logged and dropped: no outcome is recorded, and only
the text preceding the sentinel is forwarded (prepended to the next line
or emitted alone at end of message) — the line is **not** forwarded
verbatim. -/
theorem c7_malformed_sentinel (st : EmitState) (K V : ByteStr)
    (hK : K ≠ []) (hKs : ∀ b ∈ K, isSpaceByte b = false)
    (hVs : ∀ b ∈ V, isSpaceByte b = false)
    (hbad : b64decodeValidate K = none ∨ b64decodeValidate V = none) :
    emitScan st (Emission.stdout (sentinelLine K V))
      = { st with events := st.events ++ [Emission.stdout pfxBytes] } := by
  show processLines st [] (splitLines _) = _
  rw [splitLines_single _ (sentinelLine_ne_nil _ _)
    (sentinelLine_no_newline _ _ hKs hVs)]
  exact processLines_sentinelLine_bad st K V hK hKs hVs hbad

/-- C7 (witness): `c7_malformed_sentinel` instantiated at the undecodable
key `"!!!"`. -/
theorem c7_malformed_sentinel_witness :
    emitScan {} (Emission.stdout (sentinelLine (strBytes "!!!") (strBytes "eA==")))
      = { ({} : EmitState) with
          events := ({} : EmitState).events ++ [Emission.stdout pfxBytes] } :=
  c7_malformed_sentinel {} (strBytes "!!!") (strBytes "eA==")
    (by decide) (by decide) (by decide) (Or.inl (by decide))

/-- C7 (counterexample): the claim says the malformed-sentinel line is
forwarded verbatim; in fact for
`prefix ##cjunct[yield-outcome-b64 !!! eA==]##` the forwarded event is
exactly `"prefix "` — the sentinel is dropped — and no outcome is
recorded. -/
theorem c7_verbatim_counterexample :
    (emitScan {} (Emission.stdout
        (sentinelLine (strBytes "!!!") (strBytes "eA==")))).events
      = [Emission.stdout pfxBytes] ∧
    pfxBytes ≠ sentinelLine (strBytes "!!!") (strBytes "eA==") ∧
    (emitScan {} (Emission.stdout
        (sentinelLine (strBytes "!!!") (strBytes "eA==")))).outcomes = [] := by
  refine ⟨rfl, by decide, rfl⟩

/-! ### Depth-bounded recursive rendering
(`rendering/__init__.py` and `rendering/containers.py`)

`Templar._internal_render` keeps a depth counter guarded against
`MAX_RECURSION_DEPTH`, and `ContextDict.__getitem__` re-renders string
context values through the render hook under its own counter; both raise
`ActionRenderRecursionError` on overflow, which the public `render`
converts into a plain `ActionRenderError` ("eliminate
ActionRenderRecursionError stack trace on hit").  Context values here are
strings, the case the claim exercises.  Each call layer consumes one unit
of fuel, so fuel `5 * MAX_RECURSION_DEPTH + 10` covers every run that the
depth guards allow — reaching `fuelOut` is impossible, which is the
bounded-termination content of the claim. -/

/-- Modelled from the spec: the module `cjunct.rendering.constants`
holding `MAX_RECURSION_DEPTH` is not part of the sources; the spec says
rendering "is bounded by a fixed maximum depth (implementation constant)",
so it is modelled as this fixed constant. -/
def MAX_RECURSION_DEPTH : Nat := 100

/-- Result of a rendering computation: success, a raised exception, or
exhausted fuel (never reached at the stated fuel). -/
inductive ROut where
  | ok (s : List Char)
  | err (e : RenderErr)
  | fuelOut
  deriving DecidableEq, Repr

/-- `Templar._qualify_string_as_potentially_renderable`:
`"@{" in data`. -/
def hasAtBrace : List Char → Bool
  | [] => false
  | '@' :: '{' :: _ => true
  | _ :: rest => hasAtBrace rest

/-- The rendering context: keys mapped to raw string values. -/
abbrev CtxMap := List (List Char × List Char)

/-- The pending call inside the rendering recursion, one constructor per
method: `_internal_render`, its chunk loop, the `context.<key>` attribute
evaluation, `ContextDict.__getitem__`, and the latter's stabilization
loop. -/
inductive RndCall where
  | render (value : List Char)
  | lexs (ls : List Lexeme) (acc : List Char)
  | evalE (e : List Char)
  | getItem (key : List Char)
  | loop (r : List Char)
  deriving DecidableEq, Repr

/-- One recursion for the whole mutually recursive rendering machinery,
dispatching on the pending call (each layer consumes one fuel unit):
`.render` is `Templar._internal_render` — bump the templar depth, guard it
against `MAX_RECURSION_DEPTH`, return strings without `@{` unchanged,
otherwise lex and render the lexemes; `.lexs` is its chunk loop; `.evalE`
evaluates a `context.<key>` attribute expression against the containers
(the `eval` machinery restricted to the attribute access the claim
exercises); `.getItem` is `ContextDict.__getitem__` (a `KeyError` becomes
`ActionRenderError`); `.loop` is its `while True` stabilization loop — per
iteration bump the container depth, guard it, re-render through the hook
(nested resolutions stack the depth, the `finally` restores it between
iterations of one loop), stopping when the value is stable. -/
def renderStep (ctx : CtxMap) : Nat → Nat → Nat → RndCall → ROut
  | 0, _, _, _ => ROut.fuelOut
  | fuel + 1, tdepth, cdepth, call =>
      match call with
      | RndCall.render value =>
          if MAX_RECURSION_DEPTH ≤ tdepth + 1 then
            ROut.err (RenderErr.recursionError "Recursion depth exceeded")
          else if !(hasAtBrace value) then ROut.ok value
          else
            renderStep ctx fuel (tdepth + 1) cdepth
              (RndCall.lexs (templarStringLexer readExprSimple value) [])
      | RndCall.lexs [] acc => ROut.ok acc
      | RndCall.lexs (Lexeme.text s :: rest) acc =>
          renderStep ctx fuel tdepth cdepth (RndCall.lexs rest (acc ++ s))
      | RndCall.lexs (Lexeme.expr e :: rest) acc =>
          match renderStep ctx fuel tdepth cdepth (RndCall.evalE e) with
          | ROut.ok v => renderStep ctx fuel tdepth cdepth (RndCall.lexs rest (acc ++ v))
          | r => r
      | RndCall.evalE e =>
          if e.take 8 = "context.".toList then
            renderStep ctx fuel tdepth cdepth (RndCall.getItem (e.drop 8))
          else ROut.err (RenderErr.renderError "Unsupported expression")
      | RndCall.getItem key =>
          match List.lookup key ctx with
          | none => ROut.err (RenderErr.renderError "Context key not found")
          | some r => renderStep ctx fuel tdepth cdepth (RndCall.loop r)
      | RndCall.loop r =>
          if MAX_RECURSION_DEPTH ≤ cdepth + 1 then
            ROut.err (RenderErr.recursionError "Recursion depth exceeded")
          else
            match renderStep ctx fuel tdepth (cdepth + 1) (RndCall.render r) with
            | ROut.ok r2 =>
                if r2 = r then ROut.ok r
                else renderStep ctx fuel tdepth cdepth (RndCall.loop r2)
            | other => other

/-- `Templar._internal_render`. -/
def internalRender (ctx : CtxMap) (fuel tdepth cdepth : Nat) (value : List Char) : ROut :=
  renderStep ctx fuel tdepth cdepth (RndCall.render value)

/-- `Templar.render`: run `_internal_render` from depth zero and convert
an `ActionRenderRecursionError` into a plain `ActionRenderError`
(`raise ActionRenderError(e) from None`). -/
def renderTemplar (ctx : CtxMap) (value : List Char) : ROut :=
  match internalRender ctx (5 * MAX_RECURSION_DEPTH + 10) 0 0 value with
  | ROut.err (RenderErr.recursionError m) => ROut.err (RenderErr.renderError m)
  | r => r

/-- The self-referential template `@{context.<key>}`. -/
def tplOf (key : List Char) : List Char :=
  '@' :: '{' :: ("context.".toList ++ key ++ ['}'])

/-- Characters allowed in a context key for these lemmas: nothing that
interferes with lexing. -/
def plainChar (c : Char) : Prop :=
  c ≠ '@' ∧ c ≠ '{' ∧ c ≠ '}' ∧ isSpaceChar c = false

instance (c : Char) : Decidable (plainChar c) := by
  unfold plainChar
  infer_instance

lemma readExprGo_no_brace :
    ∀ (e : List Char), (∀ c ∈ e, plainChar c) →
    ∀ (pos : Nat) (acc : List Char),
    readExprGo 0 pos acc (e ++ ['}']) = some (pos + e.length, acc ++ e) := by
  intro e
  induction e with
  | nil =>
      intro _ pos acc
      simp [readExprGo]
  | cons c tl ih =>
      intro he pos acc
      have hc := he c (by simp)
      rw [List.cons_append, readExprGo]
      rw [if_neg hc.2.1, if_neg hc.2.2.1, hc.2.2.2]
      simp only [Bool.false_eq_true, if_false]
      rw [ih (fun x hx => he x (by simp [hx])) (pos + 1) (acc ++ [c])]
      congr 1
      congr 1
      · simp
        omega
      · simp

lemma scanSafe_no_at :
    ∀ (l : List Char), (∀ c ∈ l, c ≠ '@') → scanSafe l false := by
  intro l
  induction l with
  | nil => intro _; trivial
  | cons c tl ih =>
      intro hl
      rw [scanSafe, if_neg (hl c (by simp))]
      exact ⟨fun _ => rfl, ih (fun x hx => hl x (by simp [hx]))⟩

lemma lex_single_expr (e : List Char) (he : ∀ c ∈ e, plainChar c) :
    templarStringLexer readExprSimple ('@' :: '{' :: (e ++ ['}']))
      = [Lexeme.expr e] := by
  have hR : readExprSimple (e ++ ['}']) = some (e.length, e) := by
    rw [readExprSimple, readExprGo_no_brace e he 0 []]
    simp
  have hlen : ('@' :: '{' :: (e ++ ['}'])).length = e.length + 1 + 1 + 1 := by
    simp
  have hnle : ¬ ('@' :: '{' :: (e ++ ['}'])).length ≤ 0 := by
    simp
  have hnle1 : ¬ ('@' :: '{' :: (e ++ ['}'])).length ≤ 0 + 1 := by
    simp
  rw [templarStringLexer, hlen]
  rw [lexLoop, if_neg hnle]
  rw [if_pos (show ('@' :: '{' :: (e ++ ['}'])).getD 0 ' ' = '@' from rfl)]
  rw [lexLoop, if_neg hnle1]
  have hg : ('@' :: '{' :: (e ++ ['}'])).getD (0 + 1) ' ' = '{' := rfl
  rw [hg]
  rw [if_neg (show ¬ ('{' : Char) = '@' by decide)]
  rw [if_pos ?harm]
  case harm => decide
  rw [show ('@' :: '{' :: (e ++ ['}'])).drop (0 + 1 + 1) = e ++ ['}'] from rfl]
  rw [hR]
  dsimp only
  simp only [show (0 + 1 - 1 : Nat) = 0 from rfl, List.take_zero, List.drop_nil,
    List.isEmpty_nil, if_true, List.nil_append]
  rw [lexLoop_safe readExprSimple _ _ _ _ _ (by simp) ?safe]
  case safe =>
      rw [show ('@' :: '{' :: (e ++ ['}'])).drop (0 + 1 + 1) = e ++ ['}'] from rfl]
      refine scanSafe_no_at _ ?_
      intro c hc
      rcases List.mem_append.mp hc with h | h
      · exact (he c h).1
      · have hcc : c = '}' := by simpa using h
        subst hcc
        decide
  rw [if_pos ?empt]
  case empt =>
      have hdl : ('@' :: '{' :: (e ++ ['}'])).drop (0 + 1 + e.length + 2) = [] := by
        apply List.drop_eq_nil_of_le
        simp
        omega
      rw [hdl]
      rfl

/-- Rendering any template of a family of context keys that refer only to
each other (`ctx.lookup k = "@{context.k2}"` with `k2` again in the
family — covering direct self-reference and cycles of any length) runs
the two depth counters up in lockstep until the templar guard fires: the
result is the internal `ActionRenderRecursionError`, reached within the
stated fuel. -/
lemma cyclic_render_aux (ctx : CtxMap) (S : List (List Char))
    (good : ∀ k ∈ S, ∀ c ∈ k, plainChar c)
    (closed : ∀ k ∈ S, ∃ k2, k2 ∈ S ∧ List.lookup k ctx = some (tplOf k2)) :
    ∀ (d t fuel : Nat) (key : List Char), key ∈ S →
    MAX_RECURSION_DEPTH = t + d → 5 * d + 5 ≤ fuel →
    renderStep ctx fuel t t (RndCall.render (tplOf key))
      = ROut.err (RenderErr.recursionError "Recursion depth exceeded") := by
  intro d
  induction d with
  | zero =>
      intro t fuel key _ hmax hfuel
      obtain ⟨f, rfl⟩ : ∃ f, fuel = f + 1 := ⟨fuel - 1, by omega⟩
      rw [renderStep]
      try dsimp only
      rw [if_pos (by omega)]
  | succ dd ih =>
      intro t fuel key hkS hmax hfuel
      by_cases hguard : MAX_RECURSION_DEPTH ≤ t + 1
      · obtain ⟨f, rfl⟩ : ∃ f, fuel = f + 1 := ⟨fuel - 1, by omega⟩
        rw [renderStep]
        try dsimp only
        rw [if_pos hguard]
      · obtain ⟨f, rfl⟩ : ∃ f, fuel = f + 5 := ⟨fuel - 5, by omega⟩
        obtain ⟨k2, hk2S, hlo⟩ := closed key hkS
        have htpl : tplOf key = '@' :: '{' :: (("context.".toList ++ key) ++ ['}']) := by
          rw [tplOf, List.append_assoc]
        have hlex : templarStringLexer readExprSimple (tplOf key)
            = [Lexeme.expr ("context.".toList ++ key)] := by
          rw [htpl]
          refine lex_single_expr _ ?_
          intro c hc
          rcases List.mem_append.mp hc with h | h
          · have hall : ∀ x ∈ "context.".toList, plainChar x := by decide
            exact hall c h
          · exact good key hkS c h
        have h5 : renderStep ctx f (t + 1) (t + 1) (RndCall.render (tplOf k2))
            = ROut.err (RenderErr.recursionError "Recursion depth exceeded") :=
          ih (t + 1) f k2 hk2S (by omega) (by omega)
        have h4 : renderStep ctx (f + 1) (t + 1) t (RndCall.loop (tplOf k2))
            = ROut.err (RenderErr.recursionError "Recursion depth exceeded") := by
          rw [renderStep]
          try dsimp only
          rw [if_neg hguard, h5]
        have h3 : renderStep ctx (f + 2) (t + 1) t (RndCall.getItem key)
            = ROut.err (RenderErr.recursionError "Recursion depth exceeded") := by
          rw [renderStep]
          try dsimp only
          rw [hlo]
          try dsimp only
          exact h4
        have h2 : renderStep ctx (f + 3) (t + 1) t
              (RndCall.evalE ("context.".toList ++ key))
            = ROut.err (RenderErr.recursionError "Recursion depth exceeded") := by
          rw [renderStep]
          try dsimp only
          have htake : List.take 8 ("context.".toList ++ key) = "context.".toList :=
            List.take_left' (by decide)
          have hdrop : List.drop 8 ("context.".toList ++ key) = key :=
            List.drop_left' (by decide)
          rw [if_pos htake, hdrop]
          exact h3
        have h1 : renderStep ctx (f + 4) (t + 1) t
              (RndCall.lexs [Lexeme.expr ("context.".toList ++ key)] [])
            = ROut.err (RenderErr.recursionError "Recursion depth exceeded") := by
          rw [renderStep]
          try dsimp only
          rw [h2]
        rw [show f + 5 = (f + 4) + 1 from rfl, renderStep]
        try dsimp only
        rw [if_neg hguard]
        rw [show hasAtBrace (tplOf key) = true from rfl]
        rw [show (!true) = false from rfl]
        simp only [Bool.false_eq_true, if_false]
        rw [hlex]
        exact h1

/-- C9 (amended): rendering a self-referential context template — a key
whose template refers back to itself directly or through a cycle of keys —
terminates deterministically within a bounded number of steps (the fixed
fuel `5 * MAX_RECURSION_DEPTH + 10` is never exhausted): internally the
depth guard raises `ActionRenderRecursionError` when the recursion depth
reaches the fixed implementation constant `MAX_RECURSION_DEPTH`, and the
public `render` call converts it and fails by raising a plain
`ActionRenderError` (not the `ActionRenderRecursionError` subclass). -/
theorem c9_recursion_bound (ctx : CtxMap) (S : List (List Char)) (key : List Char)
    (hkS : key ∈ S) (good : ∀ k ∈ S, ∀ c ∈ k, plainChar c)
    (closed : ∀ k ∈ S, ∃ k2, k2 ∈ S ∧ List.lookup k ctx = some (tplOf k2)) :
    internalRender ctx (5 * MAX_RECURSION_DEPTH + 10) 0 0 (tplOf key)
      = ROut.err (RenderErr.recursionError "Recursion depth exceeded") ∧
    renderTemplar ctx (tplOf key)
      = ROut.err (RenderErr.renderError "Recursion depth exceeded") := by
  have h : renderStep ctx (5 * MAX_RECURSION_DEPTH + 10) 0 0
        (RndCall.render (tplOf key))
      = ROut.err (RenderErr.recursionError "Recursion depth exceeded") :=
    cyclic_render_aux ctx S good closed MAX_RECURSION_DEPTH 0
      (5 * MAX_RECURSION_DEPTH + 10) key hkS (by omega) (by omega)
  refine ⟨h, ?_⟩
  rw [renderTemplar, internalRender, h]

/-- The one-key self-referential context `{x: "@{context.x}"}`. -/
def ctxSelfX : CtxMap := [("x".toList, tplOf "x".toList)]

/-- The two-key cyclic context `{x: "@{context.y}", y: "@{context.x}"}`. -/
def ctxCycleXY : CtxMap :=
  [("x".toList, tplOf "y".toList), ("y".toList, tplOf "x".toList)]

/-- C9 (witness): `c9_recursion_bound` on the concrete self-referential
context `{x: "@{context.x}"}`. -/
theorem c9_recursion_bound_witness :
    renderTemplar ctxSelfX (tplOf "x".toList)
      = ROut.err (RenderErr.renderError "Recursion depth exceeded") :=
  (c9_recursion_bound ctxSelfX ["x".toList] "x".toList (by simp)
    (by decide)
    (by
      intro k hk
      rcases List.mem_singleton.mp hk with rfl
      exact ⟨"x".toList, List.mem_singleton.mpr rfl, rfl⟩)).2

/-- C9 (counterexample): on the self-referential context
`{x: "@{context.x}"}` the render call raises a plain `ActionRenderError`
(message preserved), never the `ActionRenderRecursionError` subclass the
claim names — the public `render` converts the internal recursion error. -/
theorem c9_no_recursion_error_escapes :
    renderTemplar ctxSelfX (tplOf "x".toList)
      = ROut.err (RenderErr.renderError "Recursion depth exceeded") ∧
    ∀ m, renderTemplar ctxSelfX (tplOf "x".toList)
      ≠ ROut.err (RenderErr.recursionError m) := by
  have h : renderStep ctxSelfX (5 * MAX_RECURSION_DEPTH + 10) 0 0
        (RndCall.render (tplOf "x".toList))
      = ROut.err (RenderErr.recursionError "Recursion depth exceeded") :=
    cyclic_render_aux ctxSelfX ["x".toList]
      (by decide)
      (by
        intro k hk
        rcases List.mem_singleton.mp hk with rfl
        exact ⟨"x".toList, List.mem_singleton.mpr rfl, rfl⟩)
      MAX_RECURSION_DEPTH 0 (5 * MAX_RECURSION_DEPTH + 10) "x".toList
      (by simp) (by omega) (by omega)
  have hr : renderTemplar ctxSelfX (tplOf "x".toList)
      = ROut.err (RenderErr.renderError "Recursion depth exceeded") := by
    rw [renderTemplar, internalRender, h]
  refine ⟨hr, ?_⟩
  intro m hc
  rw [hr] at hc
  simp at hc

/-! ### Workflow construction (`ActionNet` in `actions/net.py`)

`__init__` first runs `_establish_descendants` (prune missing external
dependencies, collect missing non-external ones, register inverse edges,
collect entrypoints) and then `_allocate_tiers` (breadth-first walk from
the entrypoints assigning each action the tier of the round that first
reaches it, then reject actions left untiered). -/

/-- The ordered keys of the action map. -/
def netKeys (net : Net) : List String := net.map Prod.fst

/-- An action's ancestors after `_establish_descendants` popped the
missing external ones. -/
def prunedAncestors (net : Net) (ancs : List (String × ActionDependency)) :
    List (String × ActionDependency) :=
  ancs.filter (fun p => (netKeys net).contains p.1 || !p.2.external)

/-- The names accumulated in `missing_non_external_deps`. -/
def missingDeps (net : Net) : List String :=
  (net.map (fun a =>
    ((a.2.filter (fun p => !(netKeys net).contains p.1 && !p.2.external)).map Prod.fst))).flatten

/-- Actions with no ancestors left after pruning (`self._entrypoints`, in
insertion order). -/
def entrypoints (net : Net) : List String :=
  (net.filter (fun a => (prunedAncestors net a.2).isEmpty)).map Prod.fst

/-- The inverse edges registered on `descendants`: the actions that list
`n` among their (pruned) ancestors. -/
def descNames (net : Net) (n : String) : List String :=
  (net.filter (fun a => (prunedAncestors net a.2).any (fun p => p.1 == n))).map Prod.fst

/-- The pruned ancestor names of action `a`. -/
def ancNames (net : Net) (a : String) : List String :=
  ((prunedAncestors net ((net.lookup a).getD [])).map Prod.fst)

/-- `_establish_descendants`: raise `IntegrityError` on missing
non-external dependencies, then on an empty entrypoint set. -/
def establishDescendants (net : Net) : Except String (List String) :=
  if missingDeps net ≠ [] then
    Except.error "Missing actions among dependencies"
  else if entrypoints net = [] then
    Except.error "No entrypoints for the graph"
  else Except.ok (entrypoints net)

/-- The `for tier_action_name in current_tier_actions_names` body of
`_allocate_tiers`: skip names already in the mapping, assign the rest the
current `step_tier` and collect their descendants as next-tier
candidates. -/
def bfsRound (net : Net) (step : Nat) :
    List String → List (String × Nat) → List String →
    List (String × Nat) × List String
  | [], mapping, cands => (mapping, cands)
  | n :: rest, mapping, cands =>
      if (mapping.map Prod.fst).contains n then bfsRound net step rest mapping cands
      else bfsRound net step rest (mapping ++ [(n, step)]) (cands ++ descNames net n)

/-- The `while True` loop of `_allocate_tiers`: run a round, stop when no
candidates remain, else advance the tier.  The fuel only bounds the
recursion; every non-final round strictly grows the mapping, so
`net.length + 2` always reaches the break. -/
def bfsLoop (net : Net) : Nat → List (String × Nat) → List String → Nat →
    List (String × Nat)
  | 0, mapping, _, _ => mapping
  | fuel + 1, mapping, cur, step =>
      match bfsRound net step cur mapping [] with
      | (mapping2, cands) =>
          if cands.isEmpty then mapping2
          else bfsLoop net fuel mapping2 cands (step + 1)

/-- `_allocate_tiers`: walk from the entrypoints, then raise
`IntegrityError` if any action was never assigned a tier. -/
def allocateTiers (net : Net) (entries : List String) :
    Except String (List (String × Nat)) :=
  if net.any (fun a =>
      !((bfsLoop net (net.length + 2) [] entries 0).map Prod.fst).contains a.1) then
    Except.error "Unreachable actions found"
  else Except.ok (bfsLoop net (net.length + 2) [] entries 0)

/-- `ActionNet.__init__`: dependency integrity, then tier allocation. -/
def buildNet (net : Net) : Except String (List (String × Nat)) :=
  match establishDescendants net with
  | Except.error e => Except.error e
  | Except.ok entries => allocateTiers net entries

/-- Reachability from the entrypoints along registered descendant edges. -/
inductive Reachable (net : Net) : String → Prop where
  | entry (n : String) (h : n ∈ entrypoints net) : Reachable net n
  | step (b a : String) (hb : Reachable net b) (ha : a ∈ descNames net b) :
      Reachable net a

lemma lookup_mem {α : Type} [BEq α] [LawfulBEq α] {β : Type} (a : α) (s : β) :
    ∀ m : List (α × β), List.lookup a m = some s → (a, s) ∈ m := by
  intro m
  induction m with
  | nil =>
      intro h
      simp [List.lookup] at h
  | cons p rest ih =>
      intro h
      rw [List.lookup] at h
      split at h
      · rename_i he
        cases h
        have ha : a = p.1 := eq_of_beq he
        exact List.mem_cons.mpr (Or.inl (by rw [ha]))
      · exact List.mem_cons_of_mem _ (ih h)

lemma mem_lookup_nodup {β : Type} (a : String) (s : β) :
    ∀ m : List (String × β), (m.map Prod.fst).Nodup → (a, s) ∈ m →
    List.lookup a m = some s := by
  intro m
  induction m with
  | nil =>
      intro _ h
      simp at h
  | cons p rest ih =>
      intro hnd h
      rw [List.map_cons, List.nodup_cons] at hnd
      rcases List.mem_cons.mp h with h1 | h1
      · subst h1
        simp [List.lookup]
      · have hne : a ≠ p.1 := by
          intro he
          exact hnd.1 (he ▸ (List.mem_map.mpr ⟨(a, s), h1, rfl⟩))
        have hbe : (a == p.1) = false := by simpa using hne
        rw [List.lookup, hbe]
        exact ih hnd.2 h1

lemma descNames_sub (net : Net) (n : String) :
    descNames net n ⊆ netKeys net := by
  intro a ha
  rw [descNames] at ha
  rcases List.mem_map.mp ha with ⟨p, hp, rfl⟩
  exact List.mem_map.mpr ⟨p, List.mem_of_mem_filter hp, rfl⟩

lemma entrypoints_sub (net : Net) : entrypoints net ⊆ netKeys net := by
  intro a ha
  rw [entrypoints] at ha
  rcases List.mem_map.mp ha with ⟨p, hp, rfl⟩
  exact List.mem_map.mpr ⟨p, List.mem_of_mem_filter hp, rfl⟩

lemma mem_descNames_iff (net : Net) (b a : String) :
    a ∈ descNames net b ↔
    ∃ ancs, (a, ancs) ∈ net ∧ b ∈ (prunedAncestors net ancs).map Prod.fst := by
  rw [descNames]
  constructor
  · intro h
    rcases List.mem_map.mp h with ⟨p, hp, rfl⟩
    have hmem := (List.mem_filter.mp hp).1
    have hfil := (List.mem_filter.mp hp).2
    refine ⟨p.2, by simpa using hmem, ?_⟩
    rcases List.any_eq_true.mp hfil with ⟨q, hq, hqb⟩
    exact List.mem_map.mpr ⟨q, hq, (eq_of_beq hqb)⟩
  · intro ⟨ancs, hmem, hb⟩
    refine List.mem_map.mpr ⟨(a, ancs), List.mem_filter.mpr ⟨hmem, ?_⟩, rfl⟩
    rcases List.mem_map.mp hb with ⟨q, hq, rfl⟩
    exact List.any_eq_true.mpr ⟨q, hq, beq_self_eq_true _⟩

lemma mem_entrypoints_iff (net : Net) (e : String) :
    e ∈ entrypoints net ↔
    ∃ ancs, (e, ancs) ∈ net ∧ prunedAncestors net ancs = [] := by
  rw [entrypoints]
  constructor
  · intro h
    rcases List.mem_map.mp h with ⟨p, hp, rfl⟩
    exact ⟨p.2, by simpa using (List.mem_filter.mp hp).1,
      List.isEmpty_iff.mp (List.mem_filter.mp hp).2⟩
  · intro ⟨ancs, hmem, hemp⟩
    exact List.mem_map.mpr ⟨(e, ancs),
      List.mem_filter.mpr ⟨hmem, by simp [hemp]⟩, rfl⟩

/-- With unique action names, an entrypoint is never a registered
descendant: its (unique) ancestor list is empty after pruning. -/
lemma entry_not_desc (net : Net) (hnd : (netKeys net).Nodup)
    (e b : String) (he : e ∈ entrypoints net) : e ∉ descNames net b := by
  intro hdesc
  rcases (mem_entrypoints_iff net e).mp he with ⟨ancs, hmem, hemp⟩
  rcases (mem_descNames_iff net b e).mp hdesc with ⟨ancs2, hmem2, hb⟩
  have : ancs = ancs2 := by
    have h1 := mem_lookup_nodup e ancs net hnd hmem
    have h2 := mem_lookup_nodup e ancs2 net hnd hmem2
    rw [h1] at h2
    exact Option.some.inj h2
  subst this
  rw [hemp] at hb
  simp at hb

lemma ancNames_desc (net : Net) (hnd : (netKeys net).Nodup)
    (a : String) (ancs : List (String × ActionDependency))
    (hmem : (a, ancs) ∈ net) (b : String) :
    b ∈ ancNames net a ↔ a ∈ descNames net b := by
  have hl : net.lookup a = some ancs := mem_lookup_nodup a ancs net hnd hmem
  rw [ancNames, hl]
  rw [mem_descNames_iff]
  constructor
  · intro h
    exact ⟨ancs, hmem, h⟩
  · intro ⟨ancs2, hmem2, hb⟩
    have : ancs = ancs2 := by
      have h2 := mem_lookup_nodup a ancs2 net hnd hmem2
      rw [hl] at h2
      exact Option.some.inj h2
    subst this
    exact hb

lemma contains_iff (l : List String) (n : String) :
    l.contains n = true ↔ n ∈ l :=
  List.elem_iff

lemma bfsRound_shape (net : Net) (step : Nat) :
    ∀ (cur : List String) (m : List (String × Nat)) (cands : List String),
    ∃ ext extC, bfsRound net step cur m cands = (m ++ ext, cands ++ extC) ∧
      (ext = [] → extC = []) ∧
      (∀ p ∈ ext, p.2 = step ∧ p.1 ∈ cur) := by
  intro cur
  induction cur with
  | nil =>
      intro m cands
      exact ⟨[], [], by simp [bfsRound], by simp, by simp⟩
  | cons n rest ih =>
      intro m cands
      rw [bfsRound]
      by_cases hc : ((m.map Prod.fst).contains n : Bool) = true
      · rw [if_pos hc]
        rcases ih m cands with ⟨ext, extC, heq, himp, hall⟩
        exact ⟨ext, extC, heq, himp,
          fun p hp => ⟨(hall p hp).1, List.mem_cons_of_mem _ (hall p hp).2⟩⟩
      · rw [if_neg hc]
        rcases ih (m ++ [(n, step)]) (cands ++ descNames net n) with
          ⟨ext, extC, heq, _, hall⟩
        refine ⟨(n, step) :: ext, descNames net n ++ extC, ?_, by simp, ?_⟩
        · rw [heq]
          simp
        · intro p hp
          rcases List.mem_cons.mp hp with h | h
          · subst h
            exact ⟨rfl, by simp⟩
          · exact ⟨(hall p h).1, List.mem_cons_of_mem _ (hall p h).2⟩

lemma bfsRound_pres (net : Net) (step : Nat) (cur : List String)
    (m : List (String × Nat)) (cands : List String) (p : String × Nat)
    (hp : p ∈ m) : p ∈ (bfsRound net step cur m cands).1 := by
  rcases bfsRound_shape net step cur m cands with ⟨ext, extC, heq, _, _⟩
  rw [heq]
  exact List.mem_append_left _ hp

lemma bfsRound_new (net : Net) (step : Nat) (cur : List String)
    (m : List (String × Nat)) (cands : List String) (p : String × Nat)
    (hp : p ∈ (bfsRound net step cur m cands).1) :
    p ∈ m ∨ (p.2 = step ∧ p.1 ∈ cur) := by
  rcases bfsRound_shape net step cur m cands with ⟨ext, extC, heq, _, hall⟩
  rw [heq] at hp
  rcases List.mem_append.mp hp with h | h
  · exact Or.inl h
  · exact Or.inr (hall p h)

lemma bfsRound_cands_pres (net : Net) (step : Nat) (cur : List String)
    (m : List (String × Nat)) (cands : List String) (c : String)
    (hc : c ∈ cands) : c ∈ (bfsRound net step cur m cands).2 := by
  rcases bfsRound_shape net step cur m cands with ⟨ext, extC, heq, _, _⟩
  rw [heq]
  exact List.mem_append_left _ hc

lemma bfsRound_cover (net : Net) (step : Nat) :
    ∀ (cur : List String) (m : List (String × Nat)) (cands : List String)
      (n : String), n ∈ cur →
    n ∈ ((bfsRound net step cur m cands).1.map Prod.fst) := by
  intro cur
  induction cur with
  | nil =>
      intro m cands n hn
      simp at hn
  | cons n0 rest ih =>
      intro m cands n hn
      rw [bfsRound]
      by_cases hc : ((m.map Prod.fst).contains n0 : Bool) = true
      · rw [if_pos hc]
        rcases List.mem_cons.mp hn with h | h
        · subst h
          have hmem : n ∈ m.map Prod.fst := (contains_iff _ _).mp hc
          rcases bfsRound_shape net step rest m cands with ⟨ext, extC, heq, _, _⟩
          rw [heq]
          simp only [List.map_append, List.mem_append]
          exact Or.inl hmem
        · exact ih m cands n h
      · rw [if_neg hc]
        rcases List.mem_cons.mp hn with h | h
        · subst h
          rcases bfsRound_shape net step rest (m ++ [(n, step)])
            (cands ++ descNames net n) with ⟨ext, extC, heq, _, _⟩
          rw [heq]
          simp
        · exact ih _ _ n h

lemma bfsRound_nodup (net : Net) (step : Nat) :
    ∀ (cur : List String) (m : List (String × Nat)) (cands : List String),
    (m.map Prod.fst).Nodup →
    ((bfsRound net step cur m cands).1.map Prod.fst).Nodup := by
  intro cur
  induction cur with
  | nil =>
      intro m cands h
      simpa [bfsRound] using h
  | cons n rest ih =>
      intro m cands h
      rw [bfsRound]
      by_cases hc : ((m.map Prod.fst).contains n : Bool) = true
      · rw [if_pos hc]
        exact ih m cands h
      · rw [if_neg hc]
        refine ih _ _ ?_
        rw [List.map_append]
        refine List.Nodup.append h (by simp) ?_
        intro x hx hx2
        have : x = n := by simpa using hx2
        subst this
        exact hc ((contains_iff _ _).mpr hx)

lemma bfsRound_cands_new (net : Net) (step : Nat) :
    ∀ (cur : List String) (m : List (String × Nat)) (cands : List String)
      (c : String), c ∈ (bfsRound net step cur m cands).2 →
    c ∈ cands ∨ ∃ b, (b, step) ∈ (bfsRound net step cur m cands).1 ∧
      c ∈ descNames net b := by
  intro cur
  induction cur with
  | nil =>
      intro m cands c hc
      rw [bfsRound] at hc
      exact Or.inl hc
  | cons n rest ih =>
      intro m cands c hc
      rw [bfsRound] at hc ⊢
      by_cases hcn : ((m.map Prod.fst).contains n : Bool) = true
      · rw [if_pos hcn] at hc ⊢
        exact ih m cands c hc
      · rw [if_neg hcn] at hc ⊢
        rcases ih _ _ c hc with h | ⟨b, hb, hcd⟩
        · rcases List.mem_append.mp h with h1 | h1
          · exact Or.inl h1
          · refine Or.inr ⟨n, ?_, h1⟩
            exact bfsRound_pres net step rest _ _ (n, step) (by simp)
        · exact Or.inr ⟨b, hb, hcd⟩

lemma bfsRound_desc_new (net : Net) (step : Nat) :
    ∀ (cur : List String) (m : List (String × Nat)) (cands : List String)
      (p : String × Nat), p ∈ (bfsRound net step cur m cands).1 → p ∉ m →
    ∀ a ∈ descNames net p.1, a ∈ (bfsRound net step cur m cands).2 := by
  intro cur
  induction cur with
  | nil =>
      intro m cands p hp hnp a _
      rw [bfsRound] at hp
      exact absurd hp hnp
  | cons n rest ih =>
      intro m cands p hp hnp a ha
      rw [bfsRound] at hp ⊢
      by_cases hcn : ((m.map Prod.fst).contains n : Bool) = true
      · rw [if_pos hcn] at hp ⊢
        exact ih m cands p hp hnp a ha
      · rw [if_neg hcn] at hp ⊢
        by_cases hpm : p ∈ m ++ [(n, step)]
        · rcases List.mem_append.mp hpm with h | h
          · exact absurd h hnp
          · have : p = (n, step) := by simpa using h
            subst this
            refine bfsRound_cands_pres net step rest _ _ a ?_
            exact List.mem_append_right _ ha
        · exact ih _ _ p hp hpm a ha

/-- Loop invariant of `_allocate_tiers`, holding at the head of each
`while` pass: the mapping has unique keys, values below the current tier,
sound values (tier 0 only for entrypoints; a positive tier has a parent
mapped one tier lower), current candidates have a parent at the previous
tier (or are the entrypoints at tier 0), descendants of mapped actions are
mapped within one tier or still pending in the candidate set, entrypoints
are mapped at 0 (or pending in round 0), and everything stays inside the
net. -/
structure BfsInv (net : Net) (m : List (String × Nat)) (cur : List String)
    (step : Nat) : Prop where
  nodup : (m.map Prod.fst).Nodup
  bound : ∀ p ∈ m, p.2 < step
  sound : ∀ p ∈ m, (p.2 = 0 → p.1 ∈ entrypoints net) ∧
    (0 < p.2 → ∃ b, (b, p.2 - 1) ∈ m ∧ p.1 ∈ descNames net b)
  curs : ∀ c ∈ cur, (step = 0 ∧ c ∈ entrypoints net) ∨
    (0 < step ∧ ∃ b, (b, step - 1) ∈ m ∧ c ∈ descNames net b)
  closure : ∀ p ∈ m, ∀ a ∈ descNames net p.1,
    (p.2 + 1 < step → ∃ s2, s2 ≤ p.2 + 1 ∧ (a, s2) ∈ m) ∧
    (p.2 + 1 = step → (∃ s2, s2 ≤ p.2 + 1 ∧ (a, s2) ∈ m) ∨ a ∈ cur)
  entries : ∀ e ∈ entrypoints net, (e, 0) ∈ m ∨ (step = 0 ∧ e ∈ cur)
  msub : (m.map Prod.fst) ⊆ netKeys net
  cursub : cur ⊆ netKeys net

/-- What holds of the final mapping when the loop breaks. -/
structure BfsExit (net : Net) (M : List (String × Nat)) : Prop where
  nodup : (M.map Prod.fst).Nodup
  sound : ∀ p ∈ M, (p.2 = 0 → p.1 ∈ entrypoints net) ∧
    (0 < p.2 → ∃ b, (b, p.2 - 1) ∈ M ∧ p.1 ∈ descNames net b)
  closure : ∀ p ∈ M, ∀ a ∈ descNames net p.1, ∃ s2, s2 ≤ p.2 + 1 ∧ (a, s2) ∈ M
  entries : ∀ e ∈ entrypoints net, (e, 0) ∈ M
  msub : (M.map Prod.fst) ⊆ netKeys net

lemma mem_of_key_mem (m : List (String × Nat)) (a : String)
    (h : a ∈ m.map Prod.fst) : ∃ s, (a, s) ∈ m := by
  rcases List.mem_map.mp h with ⟨q, hq, hq1⟩
  exact ⟨q.2, by
    have : (a, q.2) = q := by
      rw [← hq1]
    rw [this]
    exact hq⟩

lemma bfsInv_step (net : Net) (m : List (String × Nat)) (cur : List String)
    (step : Nat) (hinv : BfsInv net m cur step) :
    BfsInv net (bfsRound net step cur m []).1 (bfsRound net step cur m []).2
      (step + 1) := by
  set m2 := (bfsRound net step cur m []).1 with hm2
  set cd2 := (bfsRound net step cur m []).2 with hcd2
  have hpres : ∀ p ∈ m, p ∈ m2 := fun p hp => bfsRound_pres net step cur m [] p hp
  have hnew : ∀ p ∈ m2, p ∈ m ∨ (p.2 = step ∧ p.1 ∈ cur) :=
    fun p hp => bfsRound_new net step cur m [] p hp
  have hbound2 : ∀ p ∈ m2, p.2 < step + 1 := by
    intro p hp
    rcases hnew p hp with h | h
    · exact Nat.lt_succ_of_lt (hinv.bound p h)
    · omega
  have hcover : ∀ n ∈ cur, ∃ s2, s2 ≤ step ∧ (n, s2) ∈ m2 := by
    intro n hn
    rcases mem_of_key_mem m2 n (bfsRound_cover net step cur m [] n hn) with ⟨s2, hs2⟩
    refine ⟨s2, ?_, hs2⟩
    have := hbound2 (n, s2) hs2
    omega
  constructor
  · exact bfsRound_nodup net step cur m [] hinv.nodup
  · exact hbound2
  · intro p hp
    rcases hnew p hp with h | h
    · refine ⟨(hinv.sound p h).1, ?_⟩
      intro hpos
      rcases (hinv.sound p h).2 hpos with ⟨b, hb, hd⟩
      exact ⟨b, hpres _ hb, hd⟩
    · rcases hinv.curs p.1 h.2 with ⟨hs0, hent⟩ | ⟨hspos, b, hb, hd⟩
      · constructor
        · intro _
          exact hent
        · intro hpos
          omega
      · constructor
        · intro h0
          omega
        · intro _
          rw [h.1]
          exact ⟨b, hpres _ hb, hd⟩
  · intro c hc
    rcases bfsRound_cands_new net step cur m [] c hc with h | ⟨b, hb, hd⟩
    · simp at h
    · exact Or.inr ⟨Nat.succ_pos _, b, by simpa using hb, hd⟩
  · intro p hp a ha
    constructor
    · intro hlt
      have hlt2 : p.2 + 1 ≤ step := by omega
      rcases hnew p hp with h | h
      · rcases Nat.lt_or_ge (p.2 + 1) step with h2 | h2
        · rcases ((hinv.closure p h a ha).1 h2) with ⟨s2, hs2, hmem⟩
          exact ⟨s2, hs2, hpres _ hmem⟩
        · have heq : p.2 + 1 = step := by omega
          rcases ((hinv.closure p h a ha).2 heq) with ⟨s2, hs2, hmem⟩ | hcur
          · exact ⟨s2, hs2, hpres _ hmem⟩
          · rcases hcover a hcur with ⟨s2, hs2, hmem⟩
            exact ⟨s2, by omega, hmem⟩
      · omega
    · intro heq
      have hps : p.2 = step := by omega
      have hpnm : p ∉ m := by
        intro hpm
        have := hinv.bound p hpm
        omega
      exact Or.inr (bfsRound_desc_new net step cur m [] p hp hpnm a ha)
  · intro e he
    rcases hinv.entries e he with h | ⟨hs0, hcur⟩
    · exact Or.inl (hpres _ h)
    · rcases hcover e hcur with ⟨s2, hs2, hmem⟩
      rcases hnew (e, s2) hmem with h | h
      · have := hinv.bound _ h
        omega
      · left
        have : s2 = 0 := by
          simp only at h
          omega
        rw [← this]
        exact hmem
  · intro a ha
    rcases mem_of_key_mem m2 a ha with ⟨s2, hs2⟩
    rcases hnew (a, s2) hs2 with h | h
    · exact hinv.msub (List.mem_map.mpr ⟨(a, s2), h, rfl⟩)
    · exact hinv.cursub h.2
  · intro c hc
    rcases bfsRound_cands_new net step cur m [] c hc with h | ⟨b, _, hd⟩
    · simp at h
    · exact descNames_sub net b hd

lemma nodup_subset_length (l l' : List String) (hn : l.Nodup) (hs : l ⊆ l') :
    l.length ≤ l'.length :=
  (List.subperm_of_subset hn hs).length_le

lemma bfsExit_of_inv (net : Net) (M : List (String × Nat)) (step : Nat)
    (hstep : 0 < step) (hinv : BfsInv net M [] step) : BfsExit net M := by
  constructor
  · exact hinv.nodup
  · exact hinv.sound
  · intro p hp a ha
    have hb := hinv.bound p hp
    rcases Nat.lt_or_ge (p.2 + 1) step with h2 | h2
    · exact (hinv.closure p hp a ha).1 h2
    · have heq : p.2 + 1 = step := by omega
      rcases (hinv.closure p hp a ha).2 heq with h | h
      · exact h
      · simp at h
  · intro e he
    rcases hinv.entries e he with h | ⟨h0, _⟩
    · exact h
    · omega
  · exact hinv.msub

lemma bfsInv_init (net : Net) : BfsInv net [] (entrypoints net) 0 := by
  constructor
  · exact List.nodup_nil
  · intro p hp
    simp at hp
  · intro p hp
    simp at hp
  · intro c hc
    exact Or.inl ⟨rfl, hc⟩
  · intro p hp
    simp at hp
  · intro e he
    exact Or.inr ⟨rfl, he⟩
  · intro a ha
    simp at ha
  · exact entrypoints_sub net

lemma bfsLoop_exit (net : Net) :
    ∀ (fuel : Nat) (m : List (String × Nat)) (cur : List String) (step : Nat),
    BfsInv net m cur step →
    (netKeys net).length + 1 ≤ fuel + m.length →
    BfsExit net (bfsLoop net fuel m cur step) := by
  intro fuel
  induction fuel with
  | zero =>
      intro m cur step hinv hlen
      exfalso
      have hle := nodup_subset_length _ _ hinv.nodup hinv.msub
      rw [List.length_map, netKeys, List.length_map] at hle
      rw [netKeys, List.length_map] at hlen
      omega
  | succ fuel ih =>
      intro m cur step hinv hlen
      have hstep := bfsInv_step net m cur step hinv
      rcases bfsRound_shape net step cur m [] with ⟨ext, extC, heq, himp, _⟩
      rw [bfsLoop, heq]
      rw [heq] at hstep
      dsimp only
      split
      · rename_i hEmpty
        have hnil : extC = [] := by
          rcases extC with _ | ⟨c, cs⟩
          · rfl
          · simp at hEmpty
        subst hnil
        exact bfsExit_of_inv net (m ++ ext) (step + 1) (Nat.succ_pos _)
          (by simpa using hstep)
      · rename_i hEmpty
        have hemp : extC ≠ [] := by
          intro h
          subst h
          simp at hEmpty
        refine ih (m ++ ext) extC (step + 1) (by simpa using hstep) ?_
        have hextne : ext ≠ [] := fun h => hemp (himp h)
        have : 1 ≤ ext.length := by
          rcases ext with _ | ⟨a, t⟩
          · exact absurd rfl hextne
          · simp
        rw [List.length_append]
        omega

lemma exit_complete (net : Net) (M : List (String × Nat)) (hex : BfsExit net M)
    (a : String) (h : Reachable net a) : ∃ s, (a, s) ∈ M := by
  induction h with
  | entry n hn => exact ⟨0, hex.entries n hn⟩
  | step b a _ ha ih =>
      rcases ih with ⟨s, hs⟩
      rcases hex.closure (b, s) hs a ha with ⟨s2, _, hmem⟩
      exact ⟨s2, hmem⟩

lemma exit_sound (net : Net) (M : List (String × Nat)) (hex : BfsExit net M) :
    ∀ s a, (a, s) ∈ M → Reachable net a := by
  intro s
  induction s using Nat.strong_induction_on with
  | _ s ih =>
      intro a ha
      rcases Nat.eq_zero_or_pos s with h0 | hpos
      · subst h0
        exact Reachable.entry a ((hex.sound (a, 0) ha).1 rfl)
      · rcases (hex.sound (a, s) ha).2 hpos with ⟨b, hb, hd⟩
        exact Reachable.step b a (ih (s - 1) (by omega) b hb) hd

lemma tier_unique (M : List (String × Nat)) (hnd : (M.map Prod.fst).Nodup)
    (a : String) (t t' : Nat) (h1 : (a, t) ∈ M) (h2 : (a, t') ∈ M) : t = t' := by
  have e1 := mem_lookup_nodup a t M hnd h1
  have e2 := mem_lookup_nodup a t' M hnd h2
  rw [e1] at e2
  exact Option.some_inj.mp e2

lemma anc_in_net (net : Net) (hmd : missingDeps net = [])
    (a : String) (ancs : List (String × ActionDependency)) (hmem : (a, ancs) ∈ net) :
    ∀ p ∈ prunedAncestors net ancs, p.1 ∈ netKeys net := by
  intro p hp
  rcases List.mem_filter.mp hp with ⟨hpa, hpred⟩
  by_cases hc : (netKeys net).contains p.1
  · exact List.elem_iff.mp hc
  · exfalso
    have hext : p.2.external = false := by
      rcases Bool.or_eq_true_iff.mp hpred with h | h
      · exact absurd h hc
      · simpa using h
    have hmem2 : p.1 ∈ missingDeps net := by
      rw [missingDeps]
      refine List.mem_flatten.mpr ⟨_, List.mem_map.mpr ⟨(a, ancs), hmem, rfl⟩, ?_⟩
      refine List.mem_map.mpr ⟨p, ?_, rfl⟩
      refine List.mem_filter.mpr ⟨hpa, ?_⟩
      simp only [Bool.and_eq_true, Bool.not_eq_true']
      exact ⟨by simpa using hc, hext⟩
    rw [hmd] at hmem2
    simp at hmem2

lemma buildNet_ok_parts (net : Net) (tiers : List (String × Nat))
    (hok : buildNet net = Except.ok tiers) :
    missingDeps net = [] ∧ entrypoints net ≠ [] ∧
    tiers = bfsLoop net (net.length + 2) [] (entrypoints net) 0 ∧
    (∀ a ∈ net, ∃ t, (a.1, t) ∈ tiers) := by
  rw [buildNet, establishDescendants] at hok
  by_cases hmd : missingDeps net = []
  · rw [if_neg (by simpa using hmd)] at hok
    by_cases hep : entrypoints net = []
    · rw [if_pos hep] at hok
      simp at hok
    · rw [if_neg hep] at hok
      simp only at hok
      rw [allocateTiers] at hok
      split at hok
      · simp at hok
      · rename_i hany
        have htiers : tiers = bfsLoop net (net.length + 2) [] (entrypoints net) 0 :=
          (Except.ok.inj hok).symm
        refine ⟨hmd, hep, htiers, ?_⟩
        intro a ha
        have hfalse := Bool.not_eq_true _ |>.mp hany
        rw [List.any_eq_false] at hfalse
        have := hfalse a ha
        simp only [Bool.not_eq_true', Bool.not_eq_false] at this
        rw [← htiers] at this
        exact mem_of_key_mem tiers a.1 (List.elem_iff.mp this)
  · rw [if_pos (by simpa using hmd)] at hok
    simp at hok

lemma buildNet_ok_exit (net : Net) (tiers : List (String × Nat))
    (hok : buildNet net = Except.ok tiers) : BfsExit net tiers := by
  rcases buildNet_ok_parts net tiers hok with ⟨_, _, htiers, _⟩
  rw [htiers]
  refine bfsLoop_exit net (net.length + 2) [] (entrypoints net) 0
    (bfsInv_init net) ?_
  rw [netKeys, List.length_map]
  omega

/-- A diamond: `b` depends on `a`; `c` depends on both `a` and `b`. -/
def diamondNet : Net :=
  [("a", []), ("b", [("a", {})]), ("c", [("a", {}), ("b", {})])]

/-- A net with a directed dependency cycle `b ⇄ c` hanging off the
entrypoint `a`. -/
def cyclicNet : Net :=
  [("a", []), ("b", [("a", {}), ("c", {})]), ("c", [("b", {})])]

/-- C2 (counterexample): the BFS of `_allocate_tiers` assigns a tier on
FIRST reach.  In the diamond net it gives `c` tier 1, equal to the tier
of its ancestor `b`, so `tier(a) = 1 + max(tier(anc))` and
`tier(a) > tier(anc)` both fail. -/
theorem c2_max_tier_counterexample :
    buildNet diamondNet = Except.ok [("a", 0), ("b", 1), ("c", 1)] ∧
    "b" ∈ ancNames diamondNet "c" ∧
    ¬ (∀ tiers, buildNet diamondNet = Except.ok tiers →
        ∀ t s, List.lookup "c" tiers = some t →
          List.lookup "b" tiers = some s → s < t) := by
  refine ⟨rfl, by decide, ?_⟩
  intro h
  have := h [("a", 0), ("b", 1), ("c", 1)] rfl 1 1 rfl rfl
  omega

/-- C2 (amended): for every successfully built workflow with distinct
action names, every entrypoint gets tier 0, and every non-entrypoint `a`
gets a tier `t` with `0 < t`, some ancestor sits exactly at `t - 1`, and
every ancestor has a tier `s` with `t ≤ s + 1` — i.e.
`t = 1 + min(tier(anc))`, not `1 + max`. -/
theorem c2_tier_numbering (net : Net) (tiers : List (String × Nat))
    (hnd : (netKeys net).Nodup) (hok : buildNet net = Except.ok tiers) :
    (∀ e ∈ entrypoints net, List.lookup e tiers = some 0) ∧
    (∀ a ancs, (a, ancs) ∈ net → a ∉ entrypoints net →
      ∃ t, List.lookup a tiers = some t ∧ 0 < t ∧
        (∃ b ∈ ancNames net a, List.lookup b tiers = some (t - 1)) ∧
        (∀ b ∈ ancNames net a, ∃ s, List.lookup b tiers = some s ∧ t ≤ s + 1)) := by
  have hex := buildNet_ok_exit net tiers hok
  rcases buildNet_ok_parts net tiers hok with ⟨hmd, _, _, hall⟩
  constructor
  · intro e he
    exact mem_lookup_nodup e 0 tiers hex.nodup (hex.entries e he)
  · intro a ancs hmem hne
    rcases hall (a, ancs) hmem with ⟨t, ht⟩
    have hpos : 0 < t := by
      rcases Nat.eq_zero_or_pos t with h0 | hpos
      · exact absurd ((hex.sound (a, t) ht).1 h0) hne
      · exact hpos
    refine ⟨t, mem_lookup_nodup a t tiers hex.nodup ht, hpos, ?_, ?_⟩
    · rcases (hex.sound (a, t) ht).2 hpos with ⟨b, hb, hd⟩
      exact ⟨b, (ancNames_desc net hnd a ancs hmem b).mpr hd,
        mem_lookup_nodup b (t - 1) tiers hex.nodup hb⟩
    · intro b hbanc
      have hlook : net.lookup a = some ancs := mem_lookup_nodup a ancs net hnd hmem
      have hbkeys : b ∈ netKeys net := by
        rw [ancNames, hlook] at hbanc
        rcases List.mem_map.mp hbanc with ⟨p, hp, rfl⟩
        exact anc_in_net net hmd a ancs hmem p hp
      rcases List.mem_map.mp hbkeys with ⟨q, hq, hq1⟩
      rcases hall q hq with ⟨s, hbs⟩
      rw [hq1] at hbs
      have hdesc : a ∈ descNames net b :=
        (ancNames_desc net hnd a ancs hmem b).mp hbanc
      rcases hex.closure (b, s) hbs a hdesc with ⟨s2, hs2le, hmem2⟩
      have hst : s2 = t := tier_unique tiers hex.nodup a s2 t hmem2 ht
      exact ⟨s, mem_lookup_nodup b s tiers hex.nodup hbs, by omega⟩

theorem c2_tier_numbering_witness :
    (netKeys diamondNet).Nodup ∧
    List.lookup "a" ([("a", 0), ("b", 1), ("c", 1)] : List (String × Nat)) = some 0 :=
  ⟨by decide,
    (c2_tier_numbering diamondNet [("a", 0), ("b", 1), ("c", 1)]
      (by decide) rfl).1 "a" (by decide)⟩

/-- C3 (counterexample): the cyclic net — `b` and `c` are each other's
ancestors — builds successfully; `_allocate_tiers` raises no
`IntegrityError` on graphs whose cycles are reachable from the
entrypoints. -/
theorem c3_cycle_counterexample :
    buildNet cyclicNet = Except.ok [("a", 0), ("b", 1), ("c", 2)] ∧
    "c" ∈ ancNames cyclicNet "b" ∧ "b" ∈ ancNames cyclicNet "c" :=
  ⟨rfl, by decide, by decide⟩

/-- C3 (amended): workflow construction succeeds exactly when there are
no missing non-external dependencies, at least one entrypoint exists, and
every action is reachable from the entrypoints along dependency edges —
acyclicity is NOT required. -/
theorem c3_build_characterization (net : Net) :
    (∃ tiers, buildNet net = Except.ok tiers) ↔
    (missingDeps net = [] ∧ entrypoints net ≠ [] ∧
      ∀ a ∈ netKeys net, Reachable net a) := by
  constructor
  · rintro ⟨tiers, hok⟩
    rcases buildNet_ok_parts net tiers hok with ⟨hmd, hep, _, hall⟩
    have hex := buildNet_ok_exit net tiers hok
    refine ⟨hmd, hep, ?_⟩
    intro a ha
    rcases List.mem_map.mp ha with ⟨q, hq, hq1⟩
    rcases hall q hq with ⟨t, ht⟩
    rw [hq1] at ht
    exact exit_sound net tiers hex t a ht
  · rintro ⟨hmd, hep, hreach⟩
    have hex : BfsExit net (bfsLoop net (net.length + 2) [] (entrypoints net) 0) := by
      refine bfsLoop_exit net (net.length + 2) [] (entrypoints net) 0
        (bfsInv_init net) ?_
      rw [netKeys, List.length_map]
      omega
    refine ⟨bfsLoop net (net.length + 2) [] (entrypoints net) 0, ?_⟩
    rw [buildNet, establishDescendants, if_neg (by simpa using hmd), if_neg hep]
    simp only
    rw [allocateTiers, if_neg ?hany]
    case hany =>
      intro hany
      rcases List.any_eq_true.mp hany with ⟨q, hq, hqpred⟩
      simp only [Bool.not_eq_true', Bool.not_eq_true] at hqpred
      have hq1 : q.1 ∈ netKeys net := List.mem_map.mpr ⟨q, hq, rfl⟩
      rcases exit_complete net _ hex q.1 (hreach q.1 hq1) with ⟨s, hs⟩
      have hcon : ((bfsLoop net (net.length + 2) [] (entrypoints net) 0).map
          Prod.fst).contains q.1 = true :=
        List.elem_iff.mpr (List.mem_map.mpr ⟨(q.1, s), hs, rfl⟩)
      rw [hqpred] at hcon
      cases hcon

end Cjunct
